import Mathlib

/-!
Shallow embedding of the GeometricTools `SymmetricEigensolver<Real>` class
(Householder tridiagonalization followed by implicit-shift QR on the
tridiagonal form, with eigenvector reconstruction and optional sorting).

The embedding is parametric in the scalar field `R` (the C++ class is a
template over `Real`) and in the square-root function `sq : R → R`
standing for `std::sqrt`; the control-flow and bookkeeping theorems below
hold for every choice of `sq`.  Machine arrays (`std::vector<Real>`) are
modelled as total functions `ℕ → R` carried next to their logical sizes;
reads that the C++ code performs without a bound check are modelled as
out-of-bounds observations (`Option`-style result constructors) exactly in
the public accessors whose safety the specification talks about.
-/

namespace GTE

variable {R : Type} [LinearOrderedField R]

/-- Entry of the Givens rotation log: `GivensRotation(index, cs, sn)`. -/
structure GivensRotation (R : Type) where
  index : ℕ
  cs : R
  sn : R

/-- State of a `SymmetricEigensolver<Real>` object: the member variables of
the C++ class.  Array members are functions from flat indices to scalars. -/
structure SymmetricEigensolver (R : Type) where
  mSize : ℕ
  mMaxIterations : ℕ
  mMatrix : ℕ → R
  mDiagonal : ℕ → R
  mSuperdiagonal : ℕ → R
  mGivens : List (GivensRotation R)
  mPermutation : ℕ → ℤ
  mEigenvectorMatrixType : ℤ

/-- Constructor `SymmetricEigensolver(size, maxIterations)`: a size ≤ 1 or
maxIterations = 0 yields the inert solver (`mSize = 0`).  `std::vector`
resize value-initializes entries, hence the zero arrays. -/
def construct (size : ℤ) (maxIterations : ℕ) : SymmetricEigensolver R :=
  if 1 < size ∧ 0 < maxIterations then
    { mSize := size.toNat
      mMaxIterations := maxIterations
      mMatrix := fun _ => 0
      mDiagonal := fun _ => 0
      mSuperdiagonal := fun _ => 0
      mGivens := []
      mPermutation := fun _ => 0
      mEigenvectorMatrixType := -1 }
  else
    { mSize := 0
      mMaxIterations := 0
      mMatrix := fun _ => 0
      mDiagonal := fun _ => 0
      mSuperdiagonal := fun _ => 0
      mGivens := []
      mPermutation := fun _ => 0
      mEigenvectorMatrixType := -1 }

/-- One pass (column `i`) of `Tridiagonalize()`: build the Householder
vector from column `i`, apply the symmetric rank-2 update to the trailing
submatrix, and store `2/Dot(v,v)` and the essential part of `v` in the
vacated lower-triangle entries of column `i`.  The scratch vectors
`mVVector`, `mPVector`, `mWVector` are fully recomputed each pass and are
therefore local here.  Flat index `k` decodes as row `k / N`, column
`k % N`. -/
def triStep (sq : R → R) (N : ℕ) (M : ℕ → R) (i : ℕ) : ℕ → R :=
  let ip1 := i + 1
  let v0 : ℕ → R := fun r => if r < ip1 then 0 else M (r + N * i)
  let sumsq : R := ∑ r ∈ Finset.Ico ip1 N, v0 r * v0 r
  let length := sq sumsq
  let v : ℕ → R :=
    if 0 < length then
      fun r =>
        if r < ip1 then 0
        else if r = ip1 then 1
        else v0 r * (1 / (v0 ip1 + (if 0 ≤ v0 ip1 then 1 else -1) * length))
    else v0
  let vdv : R := if 0 < length then 1 + ∑ r ∈ Finset.Ico (ip1 + 1) N, v r * v r else 1
  let invvdv := 1 / vdv
  let twoinvvdv := invvdv * 2
  let p : ℕ → R := fun r =>
    ((∑ c ∈ Finset.Ico i r, M (r + N * c) * v c) +
      ∑ c ∈ Finset.Ico r N, M (c + N * r) * v c) * twoinvvdv
  let pdvtvdv : R := (∑ r ∈ Finset.Ico i N, p r * v r) * invvdv
  let w : ℕ → R := fun r => p r - pdvtvdv * v r
  let M1 : ℕ → R := fun k =>
    let r := k / N
    let c := k % N
    if i ≤ r ∧ r < N ∧ r ≤ c then
      if c = r then M k - v r * w r * 2 else M k - (v r * w c + w r * v c)
    else M k
  fun k =>
    let r := k / N
    let c := k % N
    if c = i ∧ r = ip1 then twoinvvdv
    else if c = i ∧ ip1 + 1 ≤ r ∧ r < N then v r
    else M1 k

/-- `Tridiagonalize()`: run `triStep` for columns `0 .. N-3`, then read the
diagonal and superdiagonal out of the transformed matrix.  Returns
(matrix, diagonal, superdiagonal). -/
def Tridiagonalize (sq : R → R) (N : ℕ) (M0 : ℕ → R) : (ℕ → R) × (ℕ → R) × (ℕ → R) :=
  let M := (List.range (N - 2)).foldl (triStep sq N) M0
  (M, fun k => M (k * (N + 1)), fun k => M (k * (N + 1) + 1))

/-- The deflation test of `Solve()`, as the specification words it: the
superdiagonal entry at `i` is treated as numerically zero when adding
`|superdiag[i]|` to `|diag[i]| + |diag[i+1]|` does not change the sum. -/
def deflated (d sd : ℕ → R) (i : ℕ) : Prop :=
  |d i| + |d (i + 1)| + |sd i| = |d i| + |d (i + 1)|

instance (d sd : ℕ → R) (i : ℕ) : Decidable (deflated d sd i) := by
  unfold deflated; infer_instance

/-- The scan of `Solve()` that looks for the lower-right-most unreduced
tridiagonal block.  `findBlockGo d sd k st` processes indices
`k-1, k-2, …, 0`; the state is `none` while no non-deflated entry has been
seen and `some (imin, imax)` afterwards, and the scan stops early (the
C++ `break`) at the first deflated entry below a found block. -/
def findBlockGo (d sd : ℕ → R) : ℕ → Option (ℕ × ℕ) → Option (ℕ × ℕ)
  | 0, st => st
  | k + 1, st =>
    let sum := |d k| + |d (k + 1)|
    if sum + |sd k| ≠ sum then
      match st with
      | none => findBlockGo d sd k (some (k, k))
      | some (_, imax) => findBlockGo d sd k (some (k, imax))
    else
      match st with
      | some _ => st
      | none => findBlockGo d sd k none

/-- The full scan of one outer `Solve()` iteration over indices
`mSize - 2, …, 0`.  `none` means every superdiagonal entry deflated
(convergence); `some (imin, imax)` is the block passed to
`DoQRImplicitShift`. -/
def findBlock (N : ℕ) (d sd : ℕ → R) : Option (ℕ × ℕ) :=
  findBlockGo d sd (N - 1) none

/-- `GetSinCos(x, y, cs, sn)`: solves `sn*x + cs*y = 0` robustly; returns
`(cs, sn)`. -/
def GetSinCos (sq : R → R) (x y : R) : R × R :=
  if y ≠ 0 then
    if |x| < |y| then
      let tau := -x / y
      let sn := 1 / sq (1 + tau * tau)
      (sn * tau, sn)
    else
      let tau := -y / x
      let cs := 1 / sq (1 + tau * tau)
      (cs, cs * tau)
  else (1, 0)

/-- The Givens sweep of `DoQRImplicitShift`: the loop over
`i1 = imin .. imax`, updating the diagonal/superdiagonal window and
appending each rotation to the log.  `fuel` is `imax - i1 + 1` at entry. -/
def qrSweep (sq : R → R) (imin imax : ℕ) :
    ℕ → ℕ → R → R → R → (ℕ → R) → (ℕ → R) → List (GivensRotation R) →
      (ℕ → R) × (ℕ → R) × List (GivensRotation R)
  | 0, _, _, _, _, d, sd, g => (d, sd, g)
  | fuel + 1, i1, x, y, a02, d, sd, g =>
    let cssn := GetSinCos sq x y
    let cs := cssn.1
    let sn := cssn.2
    let g1 := g ++ [⟨i1, cs, sn⟩]
    let sd0 := if imin < i1 then Function.update sd (i1 - 1) (cs * sd (i1 - 1) - sn * a02) else sd
    let a11 := d i1
    let a12 := sd0 i1
    let a22 := d (i1 + 1)
    let tmp11 := cs * a11 - sn * a12
    let tmp12 := cs * a12 - sn * a22
    let tmp21 := sn * a11 + cs * a12
    let tmp22 := sn * a12 + cs * a22
    let d1 := Function.update d i1 (cs * tmp11 - sn * tmp12)
    let sd1 := Function.update sd0 i1 (sn * tmp11 + cs * tmp12)
    let d2 := Function.update d1 (i1 + 1) (sn * tmp21 + cs * tmp22)
    if i1 < imax then
      let a23 := sd1 (i1 + 1)
      let a02n := -sn * a23
      let sd2 := Function.update sd1 (i1 + 1) (cs * a23)
      qrSweep sq imin imax fuel (i1 + 1) (sd1 i1) a02n a02n d2 sd2 g1
    else (d2, sd1, g1)

/-- `DoQRImplicitShift(imin, imax)`: Wilkinson shift from the trailing
2×2 block of the active range, then the Givens sweep. -/
def DoQRImplicitShift (sq : R → R) (imin imax : ℕ) (d sd : ℕ → R)
    (g : List (GivensRotation R)) : (ℕ → R) × (ℕ → R) × List (GivensRotation R) :=
  let a00 := d imax
  let a01 := sd imax
  let a11 := d (imax + 1)
  let dif := (a00 - a11) * ((1 : R) / 2)
  let sgn : R := if 0 ≤ dif then 1 else -1
  let a01sqr := a01 * a01
  let u := a11 - a01sqr / (dif + sgn * sq (dif * dif + a01sqr))
  qrSweep sq imin imax (imax - imin + 1) imin (d imin - u) (sd imin) 0 d sd g

/-- The outer iteration loop of `Solve()`: up to `fuel` more iterations,
`j` is the current outer-iteration index.  Returns `some j` at
convergence (the returned iteration count) or `none` when the budget is
exhausted, together with the final diagonal, superdiagonal and Givens
log. -/
def qrLoop (sq : R → R) (N : ℕ) :
    ℕ → ℕ → (ℕ → R) → (ℕ → R) → List (GivensRotation R) →
      Option ℕ × (ℕ → R) × (ℕ → R) × List (GivensRotation R)
  | 0, _, d, sd, g => (none, d, sd, g)
  | fuel + 1, j, d, sd, g =>
    match findBlock N d sd with
    | none => (some j, d, sd, g)
    | some (imin, imax) =>
      let s := DoQRImplicitShift sq imin imax d sd g
      qrLoop sq N fuel (j + 1) s.1 s.2.1 s.2.2

/-- `ComputePermutation(sortType)`: sets the eigenvector-matrix-type flag
from the reflection-count parity, then either marks the permutation
inactive (`sortType = 0` writes only entry 0) or sorts `(eigenvalue,
index)` items by eigenvalue and stores the index permutation.  The C++
code calls `std::sort`, whose result is only constrained to be *some*
value-sorted permutation of the items; the executable model instantiates
it with insertion sort, one conforming implementation.  Returns
(permutation, flag). -/
def ComputePermutation (N : ℕ) (d : ℕ → R) (sortType : ℤ) (oldPerm : ℕ → ℤ) :
    (ℕ → ℤ) × ℤ :=
  let t : ℤ := 1 - (N % 2 : ℤ)
  if sortType = 0 then (Function.update oldPerm 0 (-1), t)
  else
    let items : List (R × ℕ) := (List.range N).map fun i => (d i, i)
    let sorted :=
      if 0 < sortType then items.insertionSort fun a b => a.1 ≤ b.1
      else items.insertionSort fun a b => b.1 ≤ a.1
    (fun i => if i < N then ((sorted.getD i (0, 0)).2 : ℤ) else oldPerm i, t)

/-- `Solve(input, sortType)`: returns the pair (return value, new solver
state).  The return value is the converged outer-iteration index, the
sentinel `0xFFFFFFFF = 4294967295` on non-convergence, or `0` for the
inert solver. -/
def Solve (sq : R → R) (s : SymmetricEigensolver R) (input : ℕ → R) (sortType : ℤ) :
    ℕ × SymmetricEigensolver R :=
  if 0 < s.mSize then
    let N := s.mSize
    let copied : ℕ → R := fun k => if k < N * N then input k else s.mMatrix k
    let t := Tridiagonalize sq N copied
    let r := qrLoop sq N s.mMaxIterations 0 t.2.1 t.2.2 []
    match r.1 with
    | some j =>
      let pc := ComputePermutation N r.2.1 sortType s.mPermutation
      (j,
        { mSize := N
          mMaxIterations := s.mMaxIterations
          mMatrix := t.1
          mDiagonal := r.2.1
          mSuperdiagonal := r.2.2.1
          mGivens := r.2.2.2
          mPermutation := pc.1
          mEigenvectorMatrixType := pc.2 })
    | none =>
      (4294967295,
        { mSize := N
          mMaxIterations := s.mMaxIterations
          mMatrix := t.1
          mDiagonal := r.2.1
          mSuperdiagonal := r.2.2.1
          mGivens := r.2.2.2
          mPermutation := s.mPermutation
          mEigenvectorMatrixType := -1 })
  else (0, { s with mEigenvectorMatrixType := -1 })

/-- `GetEigenvalues(eigenvalues)`: fills the first `N` entries of the
output buffer (`none` models a null pointer, on which the call is a
no-op). -/
def GetEigenvalues (s : SymmetricEigensolver R) (buf : Option (ℕ → R)) : Option (ℕ → R) :=
  match buf with
  | none => none
  | some b =>
    if 0 < s.mSize then
      if 0 ≤ s.mPermutation 0 then
        some fun i => if i < s.mSize then s.mDiagonal (s.mPermutation i).toNat else b i
      else some fun i => if i < s.mSize then s.mDiagonal i else b i
    else some b

/-- One Householder factor of the backward accumulation in
`GetEigenvectors()`: `Q ← Q - v*w^T` with `v` read back from column `i`
of the stored matrix and `w^T = (2/v^T v) · v^T Q`. -/
def hhBulkStep (N : ℕ) (M : ℕ → R) (E : ℕ → R) (i : ℕ) : ℕ → R :=
  let twoinvvdv := M (i + N * (i + 1))
  let v : ℕ → R := fun r => if r < i + 1 then 0 else if r = i + 1 then 1 else M (i + N * r)
  let w : ℕ → R := fun c => (∑ k ∈ Finset.Ico (i + 1) N, v k * E (c + N * k)) * twoinvvdv
  fun idx =>
    let r := idx / N
    let c := idx % N
    if i + 1 ≤ r ∧ r < N then E idx - v r * w c else E idx

/-- One Givens factor of the chronological replay in `GetEigenvectors()`:
for each row the pair of entries in columns `index` and `index + 1` is
rotated. -/
def givensBulkStep (N : ℕ) (E : ℕ → R) (g : GivensRotation R) : ℕ → R :=
  fun idx =>
    let r := idx / N
    let c := idx % N
    if r < N ∧ c = g.index then g.cs * E idx - g.sn * E (idx + 1)
    else if r < N ∧ c = g.index + 1 then g.sn * E (idx - 1) + g.cs * E idx
    else E idx

/-- Column `c` of the row-major matrix `E`, read the way `GetEigenvectors`
documents eigenvector `c`: entry `j` is `E (c + N*j)`. -/
def colvec (N : ℕ) (E : ℕ → R) (c : ℕ) : ℕ → R := fun j => E (c + N * j)

/-- Column copy `eigenvectors[dst + N*j] = eigenvectors[src + N*j]`
(`j < N`) used while rotating a permutation cycle. -/
def writeColFrom (N : ℕ) (E : ℕ → R) (dst src : ℕ) : ℕ → R :=
  fun idx => if idx % N = dst ∧ idx / N < N then E (src + N * (idx / N)) else E idx

/-- Column write from the saved vector `mPVector` that closes a
permutation cycle. -/
def writeColVec (N : ℕ) (E : ℕ → R) (dst : ℕ) (pv : ℕ → R) : ℕ → R :=
  fun idx => if idx % N = dst ∧ idx / N < N then pv (idx / N) else E idx

/-- The inner `while ((next = mPermutation[current]) != start)` loop of the
column-permutation pass of `GetEigenvectors()`.  Each iteration toggles
the matrix-type parity, marks `current` visited and copies column `next`
onto column `current`.  The extra `ℕ` component counts the parity
toggles; the final component is `current` at loop exit.  `fuel` bounds the
iteration count (the C++ loop terminates because `p` is a permutation). -/
def cycleGo (N : ℕ) (p : ℕ → ℕ) (start : ℕ) :
    ℕ → ℕ → (ℕ → R) → (ℕ → Bool) → ℤ → ℕ →
      (ℕ → R) × (ℕ → Bool) × ℤ × ℕ × ℕ
  | 0, current, E, vis, t, cnt => (E, vis, t, cnt, current)
  | fuel + 1, current, E, vis, t, cnt =>
    let next := p current
    if next = start then (E, vis, t, cnt, current)
    else
      cycleGo N p start fuel next (writeColFrom N E current next)
        (Function.update vis current true) (1 - t) (cnt + 1)

/-- Body of the outer `for (i = 0; i < mSize; ++i)` permutation pass: an
unvisited index that starts a nontrivial cycle is rotated in place with
one saved column. -/
def permStep (N : ℕ) (p : ℕ → ℕ) (st : (ℕ → R) × (ℕ → Bool) × ℤ) (i : ℕ) :
    (ℕ → R) × (ℕ → Bool) × ℤ :=
  if st.2.1 i = false ∧ p i ≠ i then
    let pv := colvec N st.1 i
    let r := cycleGo N p i N i st.1 st.2.1 st.2.2 0
    (writeColVec N r.1 r.2.2.2.2 pv, Function.update r.2.1 r.2.2.2.2 true, r.2.2.1)
  else st

/-- The whole column-permutation pass: visited flags start clear, the
matrix-type parity starts at the reflection-count value. -/
def applyPermutation (N : ℕ) (p : ℕ → ℕ) (E0 : ℕ → R) (t0 : ℤ) : (ℕ → R) × ℤ :=
  let r := (List.range N).foldl (permStep N p) (E0, fun _ => false, t0)
  (r.1, r.2.2)

/-- `GetEigenvectors(eigenvectors)`: identity start, Householder backward
accumulation, chronological Givens replay, then (when sorting was
requested) the cyclic column permutation.  Returns the written buffer and
the solver with its updated matrix-type flag (`none` buffer models a null
pointer). -/
def GetEigenvectors (s : SymmetricEigensolver R) (buf : Option (ℕ → R)) :
    Option (ℕ → R) × SymmetricEigensolver R :=
  match buf with
  | none => (none, { s with mEigenvectorMatrixType := -1 })
  | some b =>
    if 0 < s.mSize then
      let N := s.mSize
      let E0 : ℕ → R := fun idx =>
        if idx < N * N then (if idx % N = idx / N then 1 else 0) else b idx
      let E1 := ((List.range (N - 2)).reverse).foldl (hhBulkStep N s.mMatrix) E0
      let E2 := s.mGivens.foldl (givensBulkStep N) E1
      if 0 ≤ s.mPermutation 0 then
        let p : ℕ → ℕ := fun i => (s.mPermutation i).toNat
        let r := applyPermutation N p E2 (1 - (N % 2 : ℤ))
        (some r.1, { s with mEigenvectorMatrixType := r.2 })
      else (some E2, { s with mEigenvectorMatrixType := 1 - (N % 2 : ℤ) })
    else (some b, { s with mEigenvectorMatrixType := -1 })

/-- `GetEigenvectorMatrixType()`. -/
def GetEigenvectorMatrixType (s : SymmetricEigensolver R) : ℤ :=
  s.mEigenvectorMatrixType

/-- Result of `GetEigenvector(c, eigenvector)`: either the (possibly null)
output buffer after the call, or `fault` when the C++ code dereferences a
null buffer (`std::memset` on a null pointer). -/
inductive VecResult (R : Type) where
  | ok : Option (ℕ → R) → VecResult R
  | fault : VecResult R

/-- One reversed Givens rotation applied to the work vector in
`GetEigenvector`. -/
def givensSingleStep (g : GivensRotation R) (x : ℕ → R) : ℕ → R :=
  fun j =>
    if j = g.index then g.cs * x g.index + g.sn * x (g.index + 1)
    else if j = g.index + 1 then -g.sn * x g.index + g.cs * x (g.index + 1)
    else x j

/-- One Householder reflection applied to the work vector in
`GetEigenvector` (the "reflect x into y then swap buffers" pass, in pure
form). -/
def hhSingleStep (N : ℕ) (M : ℕ → R) (x : ℕ → R) (i : ℕ) : ℕ → R :=
  let twoinvvdv := M (i + N * (i + 1))
  let s := (x (i + 1) + ∑ j ∈ Finset.Ico (i + 2) N, x j * M (i + N * j)) * twoinvvdv
  fun r =>
    if r < N then
      if r ≤ i then x r
      else if r = i + 1 then x (i + 1) - s
      else x r - s * M (i + N * r)
    else x r

/-- `GetEigenvector(c, eigenvector)`: guarded by `0 <= c && c < mSize`;
inside the guard the buffer is dereferenced without a null check.  Starts
from the (permuted) Euclidean basis vector, applies the logged Givens
rotations in reverse chronological order and then the Householder
reflections for `i = mSize-3 .. 0`. -/
def GetEigenvector (s : SymmetricEigensolver R) (c : ℤ) (buf : Option (ℕ → R)) :
    VecResult R :=
  if 0 ≤ c ∧ c < (s.mSize : ℤ) then
    match buf with
    | none => VecResult.fault
    | some b =>
      let N := s.mSize
      let tgt : ℕ :=
        if 0 ≤ s.mPermutation 0 then (s.mPermutation c.toNat).toNat else c.toNat
      let x0 : ℕ → R := fun j => if j < N then (if j = tgt then 1 else 0) else b j
      let x1 := (s.mGivens.reverse).foldl (fun x g => givensSingleStep g x) x0
      let x2 := ((List.range (N - 2)).reverse).foldl (hhSingleStep N s.mMatrix) x1
      VecResult.ok (some x2)
  else VecResult.ok buf

/-- Result of `GetEigenvalue(c)`: a diagonal value, the
`std::numeric_limits<Real>::max()` sentinel of the inert branch, or an
out-of-bounds `std::vector` read (undefined behaviour in the C++ code,
made observable here). -/
inductive EigenvalueResult (R : Type) where
  | value : R → EigenvalueResult R
  | maxSentinel : EigenvalueResult R
  | outOfBounds : EigenvalueResult R
deriving DecidableEq

/-- `GetEigenvalue(c)`: note the C++ code checks only `mSize > 0`; the
index `c` (and the permutation entry it selects) is used to subscript
`mDiagonal`/`mPermutation` without any range check, which is an
out-of-bounds read whenever it falls outside `[0, mSize)`. -/
def GetEigenvalue (s : SymmetricEigensolver R) (c : ℤ) : EigenvalueResult R :=
  if 0 < s.mSize then
    if 0 ≤ s.mPermutation 0 then
      if 0 ≤ c ∧ c < (s.mSize : ℤ) then
        let p := s.mPermutation c.toNat
        if 0 ≤ p ∧ p < (s.mSize : ℤ) then EigenvalueResult.value (s.mDiagonal p.toNat)
        else EigenvalueResult.outOfBounds
      else EigenvalueResult.outOfBounds
    else
      if 0 ≤ c ∧ c < (s.mSize : ℤ) then EigenvalueResult.value (s.mDiagonal c.toNat)
      else EigenvalueResult.outOfBounds
  else EigenvalueResult.maxSentinel

/-- Iteration count of the QR loop of `Solve` on solver `s` and matrix
`input`: `some j` when the loop converges at outer index `j`, `none` when
the budget is exhausted. -/
def solveIterations (sq : R → R) (s : SymmetricEigensolver R) (input : ℕ → R) : Option ℕ :=
  let N := s.mSize
  let copied : ℕ → R := fun k => if k < N * N then input k else s.mMatrix k
  let t := Tridiagonalize sq N copied
  (qrLoop sq N s.mMaxIterations 0 t.2.1 t.2.2 []).1

/-- The matrix left in `mMatrix` by `Solve` (tridiagonal in the upper
triangle, Householder data in the lower triangle). -/
def solveMatrix (sq : R → R) (s : SymmetricEigensolver R) (input : ℕ → R) : ℕ → R :=
  (Tridiagonalize sq s.mSize (fun k => if k < s.mSize * s.mSize then input k else s.mMatrix k)).1

/-- Diagonal after the QR loop of `Solve`. -/
def solveDiag (sq : R → R) (s : SymmetricEigensolver R) (input : ℕ → R) : ℕ → R :=
  (qrLoop sq s.mSize s.mMaxIterations 0
    (Tridiagonalize sq s.mSize (fun k => if k < s.mSize * s.mSize then input k else s.mMatrix k)).2.1
    (Tridiagonalize sq s.mSize (fun k => if k < s.mSize * s.mSize then input k else s.mMatrix k)).2.2
    []).2.1

/-- Superdiagonal after the QR loop of `Solve`. -/
def solveSuper (sq : R → R) (s : SymmetricEigensolver R) (input : ℕ → R) : ℕ → R :=
  (qrLoop sq s.mSize s.mMaxIterations 0
    (Tridiagonalize sq s.mSize (fun k => if k < s.mSize * s.mSize then input k else s.mMatrix k)).2.1
    (Tridiagonalize sq s.mSize (fun k => if k < s.mSize * s.mSize then input k else s.mMatrix k)).2.2
    []).2.2.1

/-- Givens log accumulated by the QR loop of `Solve`. -/
def solveGivens (sq : R → R) (s : SymmetricEigensolver R) (input : ℕ → R) :
    List (GivensRotation R) :=
  (qrLoop sq s.mSize s.mMaxIterations 0
    (Tridiagonalize sq s.mSize (fun k => if k < s.mSize * s.mSize then input k else s.mMatrix k)).2.1
    (Tridiagonalize sq s.mSize (fun k => if k < s.mSize * s.mSize then input k else s.mMatrix k)).2.2
    []).2.2.2

/-- Specification-side predicate: `p` acts as a permutation of
`{0, …, N-1}`. -/
def IsPermOn (p : ℕ → ℕ) (N : ℕ) : Prop :=
  (∀ i, i < N → p i < N) ∧ ∀ i, i < N → ∀ j, j < N → p i = p j → i = j

instance (p : ℕ → ℕ) (N : ℕ) : Decidable (IsPermOn p N) := by
  unfold IsPermOn; infer_instance

/-- Euclidean basis vector `e_c`. -/
def basis (c : ℕ) : ℕ → R := fun t => if t = c then 1 else 0

/-- Matrix-vector product `E * x` for the row-major `N × N` matrix `E`
(entry at row `r`, column `c` is `E (c + N*r)`). -/
def mvN (N : ℕ) (E x : ℕ → R) : ℕ → R :=
  fun r => ∑ c ∈ Finset.range N, x c * E (c + N * r)

/-- Specification-side contract of `std::sort` with the value comparator of
`ComputePermutation` for increasing order: the output is a permutation of
the input that is sorted by eigenvalue.  The C++ standard constrains
`std::sort` no further; in particular the relative order of items with
equal eigenvalues is unspecified. -/
def SortOutcomeIncr (input output : List (R × ℕ)) : Prop :=
  input.Perm output ∧ output.Sorted fun a b => a.1 ≤ b.1

/-- Length of the traversal performed by the cycle `while` loop: the number
of applications of `p` needed to get from `current` back to `start`,
bounded by `fuel` (`0` if `start` is not reached within `fuel` steps). -/
def cycleLenGo (p : ℕ → ℕ) (start : ℕ) : ℕ → ℕ → ℕ
  | 0, _ => 0
  | fuel + 1, current => if p current = start then 1 else 1 + cycleLenGo p start fuel (p current)

/-- Length of the permutation cycle through `i` (for a permutation of
`{0, …, N-1}` this is the least `m ≥ 1` with `p^[m] i = i`). -/
def cycleLength (p : ℕ → ℕ) (N i : ℕ) : ℕ := cycleLenGo p i N i

/-- Pointwise agreement of two arrays on indices below `N`. -/
def EqBelow (N : ℕ) (x y : ℕ → R) : Prop := ∀ j, j < N → x j = y j

/-- `c` lies on the permutation cycle of `a` (witnessed within `N`
applications of `p`). -/
def SameOrbit (p : ℕ → ℕ) (N a c : ℕ) : Prop := ∃ m, m < N ∧ p^[m] a = c

/-- Column indices already rotated by the outer permutation pass of
`GetEigenvectors` after its first `k` outer iterations: members of a
nontrivial cycle that meets `{0, …, k-1}`. -/
def processedBelow (p : ℕ → ℕ) (N k c : ℕ) : Prop :=
  p c ≠ c ∧ ∃ a, a < k ∧ SameOrbit p N a c

section Witnesses

/-- Stand-in square root used to instantiate concrete runs; all
control-flow theorems hold for every square-root function. -/
def qSqrtStub : ℚ → ℚ := fun _ => 1

/-- Row-major 2×2 matrix `[[2,0],[0,1]]`. -/
def wDiag2 : ℕ → ℚ := fun k => if k = 0 then 2 else if k = 3 then 1 else 0

/-- Row-major 2×2 matrix `[[5,0],[0,3]]`. -/
def wDiag2b : ℕ → ℚ := fun k => if k = 0 then 5 else if k = 3 then 3 else 0

/-- Row-major 2×2 matrix `[[0,1],[1,0]]`, which does not converge in one
iteration under `qSqrtStub`. -/
def wHard2 : ℕ → ℚ := fun k => if k = 1 ∨ k = 2 then 1 else 0

/-- Row-major 3×3 matrix `diag(3,2,1)`. -/
def wDiag3 : ℕ → ℚ :=
  fun k => if k = 0 then 3 else if k = 4 then 2 else if k = 8 then 1 else 0

/-- All-zero buffer. -/
def wZero : ℕ → ℚ := fun _ => 0

/-- All-one array. -/
def wOne : ℕ → ℚ := fun _ => 1

/-- Concrete solver: `SymmetricEigensolver<Real>(2, 1)`. -/
def wSolver21 : SymmetricEigensolver ℚ := construct 2 1

/-- Concrete solver: `SymmetricEigensolver<Real>(2, 2)`. -/
def wSolver22 : SymmetricEigensolver ℚ := construct 2 2

/-- Concrete solver: `SymmetricEigensolver<Real>(3, 4)`. -/
def wSolver34 : SymmetricEigensolver ℚ := construct 3 4

/-- The transposition of `0` and `1`. -/
def wSwap2 : ℕ → ℕ := fun i => if i = 0 then 1 else if i = 1 then 0 else i

end Witnesses

theorem qrLoop_fst_some_bound (sq : R → R) (N : ℕ) :
    ∀ fuel j d sd g j', (qrLoop sq N fuel j d sd g).1 = some j' → j ≤ j' ∧ j' < j + fuel := by
  intro fuel
  induction fuel with
  | zero =>
    intro j d sd g j' h
    simp [qrLoop] at h
  | succ n ih =>
    intro j d sd g j' h
    simp only [qrLoop] at h
    cases hfb : findBlock N d sd with
    | none =>
      rw [hfb] at h
      simp only [Option.some.injEq] at h
      omega
    | some pr =>
      obtain ⟨imin, imax⟩ := pr
      rw [hfb] at h
      simp only [] at h
      have := ih (j + 1) _ _ _ j' h
      omega

/-- C2: for every input matrix and sortType, `Solve` returns the converged
outer-iteration index (strictly less than `mMaxIterations`) when the QR
loop converges, the sentinel `0xFFFFFFFF` when the iteration budget is
exhausted, and `0` for a solver constructed inert (size ≤ 1 or
maxIterations = 0), in which case the call leaves the solver state
unchanged. -/
theorem c2_solve_return_classification (sq : R → R) (input : ℕ → R) (sortType : ℤ)
    (size : ℤ) (maxIterations : ℕ) (s : SymmetricEigensolver R) :
    (¬(1 < size ∧ 0 < maxIterations) →
      Solve sq (construct size maxIterations) input sortType =
        (0, (construct size maxIterations : SymmetricEigensolver R))) ∧
    (0 < s.mSize →
      (solveIterations sq s input = none ∧ (Solve sq s input sortType).1 = 4294967295) ∨
        ∃ j, solveIterations sq s input = some j ∧ (Solve sq s input sortType).1 = j ∧
          j < s.mMaxIterations) := by
  constructor
  · intro h
    have hc : (construct size maxIterations : SymmetricEigensolver R) =
        { mSize := 0, mMaxIterations := 0, mMatrix := fun _ => 0, mDiagonal := fun _ => 0,
          mSuperdiagonal := fun _ => 0, mGivens := [], mPermutation := fun _ => 0,
          mEigenvectorMatrixType := -1 } := by
      simp [construct, h]
    rw [hc]
    simp [Solve]
  · intro hs
    have hq : solveIterations sq s input =
        (qrLoop sq s.mSize s.mMaxIterations 0
          (Tridiagonalize sq s.mSize
            (fun k => if k < s.mSize * s.mSize then input k else s.mMatrix k)).2.1
          (Tridiagonalize sq s.mSize
            (fun k => if k < s.mSize * s.mSize then input k else s.mMatrix k)).2.2 []).1 := rfl
    rcases hql : (qrLoop sq s.mSize s.mMaxIterations 0
        (Tridiagonalize sq s.mSize
          (fun k => if k < s.mSize * s.mSize then input k else s.mMatrix k)).2.1
        (Tridiagonalize sq s.mSize
          (fun k => if k < s.mSize * s.mSize then input k else s.mMatrix k)).2.2 []).1
        with _ | j
    · left
      refine ⟨hq.trans hql, ?_⟩
      simp only [Solve, if_pos hs]
      rw [hql]
    · right
      refine ⟨j, hq.trans hql, ?_, ?_⟩
      · simp only [Solve, if_pos hs]
        rw [hql]
      · have := qrLoop_fst_some_bound sq s.mSize s.mMaxIterations 0 _ _ [] j hql
        omega

/-- Witness for C2 at concrete inputs: an inert construction
(size 1) and a converging 2×2 run. -/
theorem c2_witness :
    Solve qSqrtStub (construct 1 5 : SymmetricEigensolver ℚ) wZero 0 =
      (0, (construct 1 5 : SymmetricEigensolver ℚ)) ∧
    ((solveIterations qSqrtStub wSolver22 wDiag2 = none ∧
        (Solve qSqrtStub wSolver22 wDiag2 1).1 = 4294967295) ∨
      ∃ j, solveIterations qSqrtStub wSolver22 wDiag2 = some j ∧
        (Solve qSqrtStub wSolver22 wDiag2 1).1 = j ∧ j < wSolver22.mMaxIterations) := by
  constructor
  · exact (c2_solve_return_classification qSqrtStub wZero 0 1 5 wSolver22).1 (by decide)
  · exact (c2_solve_return_classification qSqrtStub wDiag2 1 1 5 wSolver22).2 (by decide)

theorem findBlockGo_some_always (d sd : ℕ → R) :
    ∀ k a b, ∃ a', findBlockGo d sd k (some (a, b)) = some (a', b) := by
  intro k
  induction k with
  | zero => exact fun a b => ⟨a, rfl⟩
  | succ n ih =>
    intro a b
    simp only [findBlockGo]
    by_cases hc : |d n| + |d (n + 1)| + |sd n| ≠ |d n| + |d (n + 1)|
    · rw [if_pos hc]
      exact ih n b
    · rw [if_neg hc]
      exact ⟨a, rfl⟩

theorem findBlockGo_none_iff (d sd : ℕ → R) :
    ∀ k, (findBlockGo d sd k none = none ↔ ∀ i, i < k → deflated d sd i) := by
  intro k
  induction k with
  | zero => simp [findBlockGo]
  | succ n ih =>
    simp only [findBlockGo]
    by_cases hd : deflated d sd n
    · rw [if_neg (by simpa [deflated, not_not] using hd)]
      constructor
      · intro h i hi
        rcases Nat.lt_succ_iff_lt_or_eq.mp hi with h' | rfl
        · exact ih.mp h i h'
        · exact hd
      · intro h
        exact ih.mpr fun i hi => h i (Nat.lt_succ_of_lt hi)
    · rw [if_pos (by simpa [deflated] using hd)]
      constructor
      · intro h
        exfalso
        obtain ⟨a, ha⟩ := findBlockGo_some_always d sd n n n
        rw [ha] at h
        exact Option.noConfusion h
      · intro h
        exact absurd (h n (Nat.lt_succ_self n)) hd

theorem findBlockGo_some_run (d sd : ℕ → R) :
    ∀ k b, (∀ i, k ≤ i → i ≤ b → ¬ deflated d sd i) →
      ∃ a, findBlockGo d sd k (some (k, b)) = some (a, b) ∧ a ≤ k ∧
        (∀ i, a ≤ i → i ≤ b → ¬ deflated d sd i) ∧ (a = 0 ∨ deflated d sd (a - 1)) := by
  intro k
  induction k with
  | zero =>
    intro b hb
    exact ⟨0, by simp [findBlockGo], le_refl 0, hb, Or.inl rfl⟩
  | succ n ih =>
    intro b hb
    simp only [findBlockGo]
    by_cases hd : deflated d sd n
    · rw [if_neg (by simpa [deflated, not_not] using hd)]
      exact ⟨n + 1, rfl, le_refl _, hb, Or.inr (by simpa using hd)⟩
    · rw [if_pos (by simpa [deflated] using hd)]
      obtain ⟨a, ha, hle, hnd, hedge⟩ := ih b (by
        intro i hi hib
        rcases Nat.eq_or_lt_of_le hi with rfl | h'
        · exact hd
        · exact hb i h' hib)
      exact ⟨a, ha, Nat.le_succ_of_le hle, hnd, hedge⟩

theorem findBlockGo_none_run (d sd : ℕ → R) :
    ∀ k imin imax, findBlockGo d sd k none = some (imin, imax) →
      imin ≤ imax ∧ imax < k ∧ (∀ i, imin ≤ i → i ≤ imax → ¬ deflated d sd i) ∧
        (∀ i, imax < i → i < k → deflated d sd i) ∧ (imin = 0 ∨ deflated d sd (imin - 1)) := by
  intro k
  induction k with
  | zero =>
    intro imin imax h
    simp [findBlockGo] at h
  | succ n ih =>
    intro imin imax h
    simp only [findBlockGo] at h
    by_cases hd : deflated d sd n
    · rw [if_neg (by simpa [deflated, not_not] using hd)] at h
      obtain ⟨h1, h2, h3, h4, h5⟩ := ih imin imax h
      refine ⟨h1, Nat.lt_succ_of_lt h2, h3, ?_, h5⟩
      intro i hi hin
      rcases Nat.lt_succ_iff_lt_or_eq.mp hin with h' | rfl
      · exact h4 i hi h'
      · exact hd
    · rw [if_pos (by simpa [deflated] using hd)] at h
      obtain ⟨a, ha, hle, hnd, hedge⟩ := findBlockGo_some_run d sd n n (by
        intro i hi hib
        have : i = n := le_antisymm hib hi
        subst this
        exact hd)
      rw [ha] at h
      obtain ⟨rfl, rfl⟩ : a = imin ∧ n = imax := by
        have := Option.some.inj h
        exact ⟨congrArg Prod.fst this, congrArg Prod.snd this⟩
      refine ⟨hle, Nat.lt_succ_self _, hnd, ?_, hedge⟩
      intro i hi hin
      omega

/-- C3: a superdiagonal entry is treated as numerically zero exactly when
`|diag[i]| + |diag[i+1]| + |superdiag[i]|` equals `|diag[i]| +
|diag[i+1]|`; when every entry deflates the outer loop returns the
current iteration index, and otherwise exactly one implicit-shift QR
sub-step is applied to the identified maximal unreduced trailing block
`[imin, imax]`. -/
theorem c3_deflation_block_and_step (sq : R → R) (N : ℕ) (d sd : ℕ → R)
    (fuel j : ℕ) (g : List (GivensRotation R)) :
    (findBlock N d sd = none ↔ ∀ i, i < N - 1 → deflated d sd i) ∧
    (∀ imin imax, findBlock N d sd = some (imin, imax) →
      imin ≤ imax ∧ imax < N - 1 ∧
        (∀ i, imin ≤ i → i ≤ imax → ¬ deflated d sd i) ∧
        (∀ i, imax < i → i < N - 1 → deflated d sd i) ∧
        (imin = 0 ∨ deflated d sd (imin - 1))) ∧
    (findBlock N d sd = none → qrLoop sq N (fuel + 1) j d sd g = (some j, d, sd, g)) ∧
    (∀ imin imax, findBlock N d sd = some (imin, imax) →
      qrLoop sq N (fuel + 1) j d sd g =
        qrLoop sq N fuel (j + 1) (DoQRImplicitShift sq imin imax d sd g).1
          (DoQRImplicitShift sq imin imax d sd g).2.1
          (DoQRImplicitShift sq imin imax d sd g).2.2) := by
  refine ⟨findBlockGo_none_iff d sd (N - 1), ?_, ?_, ?_⟩
  · intro imin imax h
    exact findBlockGo_none_run d sd (N - 1) imin imax h
  · intro h
    simp only [qrLoop]
    rw [h]
  · intro imin imax h
    simp only [qrLoop]
    rw [h]

/-- Witness for C3 at a concrete 2×2 configuration: diagonal `(0,0)` with
superdiagonal `(1)` has the single unreduced block `[0, 0]`, and one QR
sub-step is applied to it; with the zero superdiagonal the loop returns
the incoming iteration index. -/
theorem c3_witness :
    ((0 : ℕ) ≤ 0 ∧ (0 : ℕ) < 2 - 1 ∧
      (∀ i, 0 ≤ i → i ≤ 0 → ¬ deflated wZero wOne i) ∧
      (∀ i, 0 < i → i < 2 - 1 → deflated wZero wOne i) ∧
      ((0 : ℕ) = 0 ∨ deflated wZero wOne (0 - 1))) ∧
    qrLoop qSqrtStub 2 1 0 wZero wOne [] =
      qrLoop qSqrtStub 2 0 1 (DoQRImplicitShift qSqrtStub 0 0 wZero wOne []).1
        (DoQRImplicitShift qSqrtStub 0 0 wZero wOne []).2.1
        (DoQRImplicitShift qSqrtStub 0 0 wZero wOne []).2.2 ∧
    qrLoop qSqrtStub 2 1 0 wZero wZero [] = (some 0, wZero, wZero, []) := by
  refine ⟨?_, ?_, ?_⟩
  · exact (c3_deflation_block_and_step qSqrtStub 2 wZero wOne 0 0 []).2.1 0 0
      (by with_unfolding_all decide)
  · exact (c3_deflation_block_and_step qSqrtStub 2 wZero wOne 0 0 []).2.2.2 0 0
      (by with_unfolding_all decide)
  · exact (c3_deflation_block_and_step qSqrtStub 2 wZero wZero 0 0 []).2.2.1
      (by with_unfolding_all decide)

/-- C6 (amended): `GetEigenvector` is guarded by an explicit range check
and out-of-range calls are no-ops on buffer and state; `GetEigenvalue`,
however, checks only that the solver is not inert: an out-of-range column
index on a non-inert solver subscripts `mDiagonal`/`mPermutation` out of
bounds instead of returning a sentinel, and the max-value sentinel is
returned only by the inert solver. -/
theorem c6_range_guards (s : SymmetricEigensolver R) (c : ℤ) (buf : Option (ℕ → R)) :
    (¬(0 ≤ c ∧ c < (s.mSize : ℤ)) → GetEigenvector s c buf = VecResult.ok buf) ∧
    (0 < s.mSize → ¬(0 ≤ c ∧ c < (s.mSize : ℤ)) →
      GetEigenvalue s c = EigenvalueResult.outOfBounds) ∧
    (s.mSize = 0 → GetEigenvalue s c = EigenvalueResult.maxSentinel) := by
  refine ⟨?_, ?_, ?_⟩
  · intro h
    simp only [GetEigenvector, if_neg h]
  · intro hs h
    simp only [GetEigenvalue, if_pos hs]
    by_cases hp : 0 ≤ s.mPermutation 0
    · rw [if_pos hp, if_neg h]
    · rw [if_neg hp, if_neg h]
  · intro h
    simp only [GetEigenvalue]
    rw [if_neg (by omega)]

/-- Counterexample for C6 as stated: on the non-inert solver
`SymmetricEigensolver<Real>(2, 5)` the call `GetEigenvalue(5)` performs an
out-of-bounds `std::vector` read (no range check exists in the code), so
it does not return the claimed sentinel. -/
theorem c6_counterexample :
    GetEigenvalue (construct 2 5 : SymmetricEigensolver ℚ) 5 = EigenvalueResult.outOfBounds ∧
    GetEigenvalue (construct 2 5 : SymmetricEigensolver ℚ) 5 ≠ EigenvalueResult.maxSentinel := by
  exact ⟨rfl, by decide⟩

/-- Witness for C6 (amended) at concrete inputs. -/
theorem c6_witness :
    GetEigenvector (construct 2 5 : SymmetricEigensolver ℚ) (-1) (some wZero) =
      VecResult.ok (some wZero) ∧
    GetEigenvalue (construct 2 5 : SymmetricEigensolver ℚ) (-1) = EigenvalueResult.outOfBounds ∧
    GetEigenvalue (construct 0 5 : SymmetricEigensolver ℚ) 0 = EigenvalueResult.maxSentinel := by
  refine ⟨?_, ?_, ?_⟩
  · exact (c6_range_guards (construct 2 5 : SymmetricEigensolver ℚ) (-1) (some wZero)).1
      (by decide)
  · exact (c6_range_guards (construct 2 5 : SymmetricEigensolver ℚ) (-1) none).2.1
      (by decide) (by decide)
  · exact (c6_range_guards (construct 0 5 : SymmetricEigensolver ℚ) 0 none).2.2 (by decide)

/-- C7 (amended): `GetEigenvalues(null)` and `GetEigenvectors(null)` write
nothing to the buffer (though `GetEigenvectors` still resets the
matrix-type flag to -1 before its null check); `GetEigenvector` has no
null check at all and dereferences the null buffer (`std::memset`)
whenever the column index passes the range guard. -/
theorem c7_null_buffer_behavior (s : SymmetricEigensolver R) (c : ℤ) :
    GetEigenvalues s none = none ∧
    GetEigenvectors s none = (none, { s with mEigenvectorMatrixType := -1 }) ∧
    (0 ≤ c ∧ c < (s.mSize : ℤ) → GetEigenvector s c none = VecResult.fault) ∧
    (¬(0 ≤ c ∧ c < (s.mSize : ℤ)) → GetEigenvector s c none = VecResult.ok none) := by
  refine ⟨rfl, rfl, ?_, ?_⟩
  · intro h
    simp only [GetEigenvector, if_pos h]
  · intro h
    simp only [GetEigenvector, if_neg h]

/-- Counterexample for C7 as stated: `GetEigenvector(0, nullptr)` on the
non-inert solver `SymmetricEigensolver<Real>(2, 5)` faults (the code
calls `std::memset` on the null output buffer) instead of being a no-op. -/
theorem c7_counterexample :
    GetEigenvector (construct 2 5 : SymmetricEigensolver ℚ) 0 none = VecResult.fault := rfl

/-- Witness for C7 (amended) at concrete inputs. -/
theorem c7_witness :
    GetEigenvalues wSolver22 none = none ∧
    GetEigenvectors wSolver22 none = (none, { wSolver22 with mEigenvectorMatrixType := -1 }) ∧
    GetEigenvector wSolver22 1 none = VecResult.fault ∧
    GetEigenvector wSolver22 5 none = VecResult.ok none := by
  refine ⟨(c7_null_buffer_behavior wSolver22 1).1, (c7_null_buffer_behavior wSolver22 1).2.1,
    (c7_null_buffer_behavior wSolver22 1).2.2.1 (by decide),
    (c7_null_buffer_behavior wSolver22 5).2.2.2 (by decide)⟩

theorem ComputePermutation_snd (N : ℕ) (d : ℕ → R) (sortType : ℤ) (oldPerm : ℕ → ℤ) :
    (ComputePermutation N d sortType oldPerm).2 = 1 - (N % 2 : ℤ) := by
  simp only [ComputePermutation]
  by_cases h : sortType = 0
  · rw [if_pos h]
  · rw [if_neg h]

/-- C10: a convergent `Solve` (any sortType) already leaves the
eigenvector-matrix-type flag at `1 - (N mod 2)` — `GetEigenvectors` need
not have been called — while a `Solve` that returns the non-convergence
sentinel, or a call on the inert solver, leaves the flag at `-1`. -/
theorem c10_solve_sets_matrix_type (sq : R → R) (s : SymmetricEigensolver R)
    (input : ℕ → R) (sortType : ℤ) :
    (0 < s.mSize →
      (∀ j, solveIterations sq s input = some j →
        GetEigenvectorMatrixType (Solve sq s input sortType).2 = 1 - (s.mSize % 2 : ℤ)) ∧
      (solveIterations sq s input = none →
        (Solve sq s input sortType).1 = 4294967295 ∧
        GetEigenvectorMatrixType (Solve sq s input sortType).2 = -1)) ∧
    (s.mSize = 0 → GetEigenvectorMatrixType (Solve sq s input sortType).2 = -1) := by
  constructor
  · intro hs
    constructor
    · intro j hj
      have hql : (qrLoop sq s.mSize s.mMaxIterations 0
          (Tridiagonalize sq s.mSize
            (fun k => if k < s.mSize * s.mSize then input k else s.mMatrix k)).2.1
          (Tridiagonalize sq s.mSize
            (fun k => if k < s.mSize * s.mSize then input k else s.mMatrix k)).2.2 []).1 =
            some j := hj
      simp only [GetEigenvectorMatrixType, Solve, if_pos hs]
      rw [hql]
      exact ComputePermutation_snd s.mSize _ sortType s.mPermutation
    · intro hj
      have hql : (qrLoop sq s.mSize s.mMaxIterations 0
          (Tridiagonalize sq s.mSize
            (fun k => if k < s.mSize * s.mSize then input k else s.mMatrix k)).2.1
          (Tridiagonalize sq s.mSize
            (fun k => if k < s.mSize * s.mSize then input k else s.mMatrix k)).2.2 []).1 =
            none := hj
      constructor
      · simp only [Solve, if_pos hs]
        rw [hql]
      · simp only [GetEigenvectorMatrixType, Solve, if_pos hs]
        rw [hql]
  · intro hs
    have : ¬ 0 < s.mSize := by omega
    simp only [GetEigenvectorMatrixType, Solve, if_neg this]

/-- Witness for C10 at concrete runs: a converging 2×2 solve (flag becomes
`1 - 2 % 2 = 1`), a non-converging 2×2 solve (flag `-1`), and an inert
solver (flag `-1`). -/
theorem c10_witness :
    GetEigenvectorMatrixType (Solve qSqrtStub wSolver22 wDiag2 0).2 = 1 - ((2 : ℕ) % 2 : ℤ) ∧
    ((Solve qSqrtStub wSolver21 wHard2 0).1 = 4294967295 ∧
      GetEigenvectorMatrixType (Solve qSqrtStub wSolver21 wHard2 0).2 = -1) ∧
    GetEigenvectorMatrixType (Solve qSqrtStub (construct 1 5) wZero 0).2 = -1 := by
  refine ⟨?_, ?_, ?_⟩
  · exact ((c10_solve_sets_matrix_type qSqrtStub wSolver22 wDiag2 0).1 (by decide)).1 0
      (by with_unfolding_all decide)
  · exact ((c10_solve_sets_matrix_type qSqrtStub wSolver21 wHard2 0).1 (by decide)).2
      (by with_unfolding_all decide)
  · exact (c10_solve_sets_matrix_type qSqrtStub (construct 1 5) wZero 0).2 (by decide)

theorem Solve_some_eq (sq : R → R) (s : SymmetricEigensolver R) (input : ℕ → R)
    (sortType : ℤ) (hs : 0 < s.mSize) (j : ℕ) (hj : solveIterations sq s input = some j) :
    Solve sq s input sortType =
      (j, { mSize := s.mSize
            mMaxIterations := s.mMaxIterations
            mMatrix := solveMatrix sq s input
            mDiagonal := solveDiag sq s input
            mSuperdiagonal := solveSuper sq s input
            mGivens := solveGivens sq s input
            mPermutation :=
              (ComputePermutation s.mSize (solveDiag sq s input) sortType s.mPermutation).1
            mEigenvectorMatrixType :=
              (ComputePermutation s.mSize (solveDiag sq s input) sortType s.mPermutation).2 }) := by
  have hql : (qrLoop sq s.mSize s.mMaxIterations 0
      (Tridiagonalize sq s.mSize
        (fun k => if k < s.mSize * s.mSize then input k else s.mMatrix k)).2.1
      (Tridiagonalize sq s.mSize
        (fun k => if k < s.mSize * s.mSize then input k else s.mMatrix k)).2.2 []).1 =
        some j := hj
  simp only [Solve, if_pos hs]
  rw [hql]
  rfl

theorem Solve_none_eq (sq : R → R) (s : SymmetricEigensolver R) (input : ℕ → R)
    (sortType : ℤ) (hs : 0 < s.mSize) (hj : solveIterations sq s input = none) :
    Solve sq s input sortType =
      (4294967295,
        { mSize := s.mSize
          mMaxIterations := s.mMaxIterations
          mMatrix := solveMatrix sq s input
          mDiagonal := solveDiag sq s input
          mSuperdiagonal := solveSuper sq s input
          mGivens := solveGivens sq s input
          mPermutation := s.mPermutation
          mEigenvectorMatrixType := -1 }) := by
  have hql : (qrLoop sq s.mSize s.mMaxIterations 0
      (Tridiagonalize sq s.mSize
        (fun k => if k < s.mSize * s.mSize then input k else s.mMatrix k)).2.1
      (Tridiagonalize sq s.mSize
        (fun k => if k < s.mSize * s.mSize then input k else s.mMatrix k)).2.2 []).1 =
        none := hj
  simp only [Solve, if_pos hs]
  rw [hql]
  rfl

/-- C8 (amended): a non-inert `Solve` always clears the Givens rotation
log (its result does not depend on the incoming log), but the permutation
state is recomputed only on convergence: when `Solve` returns without
converging, the permutation written by the previous invocation persists
and keeps influencing subsequent getter results. -/
theorem c8_reset_behavior (sq : R → R) (s : SymmetricEigensolver R) (input : ℕ → R)
    (sortType : ℤ) (g0 : List (GivensRotation R)) (hs : 0 < s.mSize) :
    Solve sq { s with mGivens := g0 } input sortType = Solve sq s input sortType ∧
    (solveIterations sq s input = none →
      (Solve sq s input sortType).2.mPermutation = s.mPermutation) := by
  constructor
  · simp only [Solve, if_pos hs]
  · intro hj
    rw [Solve_none_eq sq s input sortType hs hj]

/-- Counterexample for C8 as stated: two solvers that differ only in the
`sortType` of a previous converged `Solve` are given the same
non-converging input; the non-convergent invocation does not reset the
permutation (entry 0 stays `1` in one history and `-1` in the other), and
`GetEigenvalue(0)` afterwards returns different values, so state from the
previous solve influences getter results. -/
theorem c8_counterexample :
    (Solve qSqrtStub (Solve qSqrtStub wSolver21 wDiag2b 1).2 wHard2 0).1 = 4294967295 ∧
    (Solve qSqrtStub (Solve qSqrtStub wSolver21 wDiag2b 0).2 wHard2 0).1 = 4294967295 ∧
    (Solve qSqrtStub (Solve qSqrtStub wSolver21 wDiag2b 1).2 wHard2 0).2.mPermutation 0 = 1 ∧
    (Solve qSqrtStub (Solve qSqrtStub wSolver21 wDiag2b 0).2 wHard2 0).2.mPermutation 0 = -1 ∧
    GetEigenvalue (Solve qSqrtStub (Solve qSqrtStub wSolver21 wDiag2b 1).2 wHard2 0).2 0 ≠
      GetEigenvalue (Solve qSqrtStub (Solve qSqrtStub wSolver21 wDiag2b 0).2 wHard2 0).2 0 := by
  with_unfolding_all decide

/-- Witness for C8 (amended) at a concrete non-converging run. -/
theorem c8_witness :
    Solve qSqrtStub { wSolver21 with mGivens := [⟨0, 1, 1⟩] } wHard2 0 =
      Solve qSqrtStub wSolver21 wHard2 0 ∧
    (Solve qSqrtStub wSolver21 wHard2 0).2.mPermutation = wSolver21.mPermutation := by
  exact ⟨(c8_reset_behavior qSqrtStub wSolver21 wHard2 0 [⟨0, 1, 1⟩] (by decide)).1,
    (c8_reset_behavior qSqrtStub wSolver21 wHard2 0 [] (by decide)).2
      (by with_unfolding_all decide)⟩

omit [LinearOrderedField R] in
theorem sorted_items_entry (N : ℕ) (d : ℕ → R) (rr : R × ℕ → R × ℕ → Prop)
    [DecidableRel rr] (x : R × ℕ)
    (hx : x ∈ ((List.range N).map fun t => (d t, t)).insertionSort rr) :
    x.1 = d x.2 ∧ x.2 < N := by
  have hx' : x ∈ (List.range N).map fun t => (d t, t) :=
    (List.perm_insertionSort rr _).mem_iff.mp hx
  obtain ⟨t, ht, hxe⟩ := List.mem_map.mp hx'
  refine ⟨?_, ?_⟩
  · rw [← hxe]
  · rw [← hxe]
    exact List.mem_range.mp ht

omit [LinearOrderedField R] in
theorem sorted_items_length (N : ℕ) (d : ℕ → R) (rr : R × ℕ → R × ℕ → Prop)
    [DecidableRel rr] :
    (((List.range N).map fun t => (d t, t)).insertionSort rr).length = N := by
  rw [(List.perm_insertionSort rr _).length_eq, List.length_map, List.length_range]

/-- C5 (amended): after a converged `Solve` with sortType = +1
(respectively -1), `GetEigenvalues` fills the output in non-decreasing
(respectively non-increasing) eigenvalue order.  (The relative order of
equal eigenvalues is not specified: the code sorts with `std::sort` and a
value-only comparator; see the counterexample.) -/
theorem c5_sorted_eigenvalues (sq : R → R) (s : SymmetricEigensolver R) (input : ℕ → R)
    (b : ℕ → R) (hs : 0 < s.mSize) (j : ℕ) (hj : solveIterations sq s input = some j) :
    (∃ out, GetEigenvalues (Solve sq s input 1).2 (some b) = some out ∧
      ∀ i k, i ≤ k → k < s.mSize → out i ≤ out k) ∧
    (∃ out, GetEigenvalues (Solve sq s input (-1)).2 (some b) = some out ∧
      ∀ i k, i ≤ k → k < s.mSize → out k ≤ out i) := by
  have hN := hs
  constructor
  · -- increasing
    haveI hTot : IsTotal (R × ℕ) (fun a b : R × ℕ => a.1 ≤ b.1) :=
      ⟨fun a b => le_total a.1 b.1⟩
    haveI hTrans : IsTrans (R × ℕ) (fun a b : R × ℕ => a.1 ≤ b.1) :=
      ⟨fun a b c h1 h2 => le_trans h1 h2⟩
    haveI hRefl : IsRefl (R × ℕ) (fun a b : R × ℕ => a.1 ≤ b.1) := ⟨fun a => le_refl a.1⟩
    rw [Solve_some_eq sq s input 1 hs j hj]
    have hlen := sorted_items_length s.mSize (solveDiag sq s input)
      (fun a b : R × ℕ => a.1 ≤ b.1)
    have hsorted := List.sorted_insertionSort (fun a b : R × ℕ => a.1 ≤ b.1)
      ((List.range s.mSize).map fun t => (solveDiag sq s input t, t))
    have hpermEq : (ComputePermutation s.mSize (solveDiag sq s input) 1 s.mPermutation).1 =
        fun i => if i < s.mSize then
          (((((List.range s.mSize).map fun t => (solveDiag sq s input t, t)).insertionSort
            fun a b : R × ℕ => a.1 ≤ b.1).getD i (0, 0)).2 : ℤ)
        else s.mPermutation i := by
      simp only [ComputePermutation]
      rw [if_neg (by decide : ¬ (1 : ℤ) = 0), if_pos (by decide : (0 : ℤ) < 1)]
    refine ⟨fun i => if i < s.mSize then
        solveDiag sq s input
          ((ComputePermutation s.mSize (solveDiag sq s input) 1 s.mPermutation).1 i).toNat
      else b i, ?_, ?_⟩
    · simp only [GetEigenvalues]
      rw [if_pos hs, if_pos ?hp]
      case hp =>
        rw [hpermEq]
        simp only [if_pos hN]
        exact Int.natCast_nonneg _
    · intro i k hik hk
      have hi : i < s.mSize := lt_of_le_of_lt hik hk
      simp only [if_pos hi, if_pos hk, hpermEq, Int.toNat_natCast]
      have hi' : i < (((List.range s.mSize).map fun t =>
          (solveDiag sq s input t, t)).insertionSort fun a b : R × ℕ => a.1 ≤ b.1).length := by
        rw [hlen]; exact hi
      have hk' : k < (((List.range s.mSize).map fun t =>
          (solveDiag sq s input t, t)).insertionSort fun a b : R × ℕ => a.1 ≤ b.1).length := by
        rw [hlen]; exact hk
      rw [List.getD_eq_get?, List.getD_eq_get?, List.get?_eq_get hi', List.get?_eq_get hk']
      simp only [Option.getD_some]
      have hvi := sorted_items_entry s.mSize (solveDiag sq s input) _ _ (List.get_mem _ _ hi')
      have hvk := sorted_items_entry s.mSize (solveDiag sq s input) _ _ (List.get_mem _ _ hk')
      rw [← hvi.1, ← hvk.1]
      exact hsorted.rel_get_of_le (by exact hik)
  · -- decreasing
    haveI hTot : IsTotal (R × ℕ) (fun a b : R × ℕ => b.1 ≤ a.1) :=
      ⟨fun a b => (le_total a.1 b.1).symm⟩
    haveI hTrans : IsTrans (R × ℕ) (fun a b : R × ℕ => b.1 ≤ a.1) :=
      ⟨fun a b c h1 h2 => le_trans h2 h1⟩
    haveI hRefl : IsRefl (R × ℕ) (fun a b : R × ℕ => b.1 ≤ a.1) := ⟨fun a => le_refl a.1⟩
    rw [Solve_some_eq sq s input (-1) hs j hj]
    have hlen := sorted_items_length s.mSize (solveDiag sq s input)
      (fun a b : R × ℕ => b.1 ≤ a.1)
    have hsorted := List.sorted_insertionSort (fun a b : R × ℕ => b.1 ≤ a.1)
      ((List.range s.mSize).map fun t => (solveDiag sq s input t, t))
    have hpermEq : (ComputePermutation s.mSize (solveDiag sq s input) (-1) s.mPermutation).1 =
        fun i => if i < s.mSize then
          (((((List.range s.mSize).map fun t => (solveDiag sq s input t, t)).insertionSort
            fun a b : R × ℕ => b.1 ≤ a.1).getD i (0, 0)).2 : ℤ)
        else s.mPermutation i := by
      simp only [ComputePermutation]
      rw [if_neg (by decide : ¬ (-1 : ℤ) = 0), if_neg (by decide : ¬ (0 : ℤ) < -1)]
    refine ⟨fun i => if i < s.mSize then
        solveDiag sq s input
          ((ComputePermutation s.mSize (solveDiag sq s input) (-1) s.mPermutation).1 i).toNat
      else b i, ?_, ?_⟩
    · simp only [GetEigenvalues]
      rw [if_pos hs, if_pos ?hp2]
      case hp2 =>
        rw [hpermEq]
        simp only [if_pos hN]
        exact Int.natCast_nonneg _
    · intro i k hik hk
      have hi : i < s.mSize := lt_of_le_of_lt hik hk
      simp only [if_pos hi, if_pos hk, hpermEq, Int.toNat_natCast]
      have hi' : i < (((List.range s.mSize).map fun t =>
          (solveDiag sq s input t, t)).insertionSort fun a b : R × ℕ => b.1 ≤ a.1).length := by
        rw [hlen]; exact hi
      have hk' : k < (((List.range s.mSize).map fun t =>
          (solveDiag sq s input t, t)).insertionSort fun a b : R × ℕ => b.1 ≤ a.1).length := by
        rw [hlen]; exact hk
      rw [List.getD_eq_get?, List.getD_eq_get?, List.get?_eq_get hi', List.get?_eq_get hk']
      simp only [Option.getD_some]
      have hvi := sorted_items_entry s.mSize (solveDiag sq s input) _ _ (List.get_mem _ _ hi')
      have hvk := sorted_items_entry s.mSize (solveDiag sq s input) _ _ (List.get_mem _ _ hk')
      rw [← hvi.1, ← hvk.1]
      exact hsorted.rel_get_of_le (by exact hik)

/-- Counterexample for C5's stability assertion: with two equal
eigenvalues, `[(1,1), (1,0)]` is a legal `std::sort` outcome for the
value-only comparator of `ComputePermutation` (it is a sorted permutation
of the items), and the permutation it induces is `[1, 0]`, which does not
retain the original index order of the tied eigenvalues. -/
theorem c5_counterexample :
    ((List.range 2).map fun i => ((1 : ℚ), i)) = [((1 : ℚ), 0), ((1 : ℚ), 1)] ∧
    SortOutcomeIncr [((1 : ℚ), 0), ((1 : ℚ), 1)] [((1 : ℚ), 1), ((1 : ℚ), 0)] ∧
    [((1 : ℚ), 1), ((1 : ℚ), 0)].map Prod.snd = [1, 0] ∧ ([1, 0] : List ℕ) ≠ [0, 1] := by
  refine ⟨by decide, ⟨?_, ?_⟩, by decide, by decide⟩
  · exact List.Perm.swap _ _ _
  · exact List.sorted_cons.mpr ⟨by intro b hb; simp at hb; rw [hb], List.sorted_singleton _⟩

/-- Witness for C5 (amended): a concrete converged 2×2 solve sorted both
ways. -/
theorem c5_witness :
    (∃ out, GetEigenvalues (Solve qSqrtStub wSolver22 wDiag2 1).2 (some wZero) = some out ∧
      ∀ i k, i ≤ k → k < wSolver22.mSize → out i ≤ out k) ∧
    (∃ out, GetEigenvalues (Solve qSqrtStub wSolver22 wDiag2 (-1)).2 (some wZero) = some out ∧
      ∀ i k, i ≤ k → k < wSolver22.mSize → out k ≤ out i) :=
  c5_sorted_eigenvalues qSqrtStub wSolver22 wDiag2 wZero (by decide) 0
    (by with_unfolding_all decide)

theorem IsPermOn.iterate_lt {p : ℕ → ℕ} {N : ℕ} (hp : IsPermOn p N) {i : ℕ} (hi : i < N) :
    ∀ m, p^[m] i < N := by
  intro m
  induction m with
  | zero => exact hi
  | succ n ih =>
    rw [Function.iterate_succ_apply']
    exact hp.1 _ ih

theorem IsPermOn.iterate_inj {p : ℕ → ℕ} {N : ℕ} (hp : IsPermOn p N) :
    ∀ (a : ℕ) {x y : ℕ}, x < N → y < N → p^[a] x = p^[a] y → x = y := by
  intro a
  induction a with
  | zero => intro x y _ _ h; exact h
  | succ n ih =>
    intro x y hx hy h
    rw [Function.iterate_succ_apply', Function.iterate_succ_apply'] at h
    have hx' := hp.iterate_lt hx n
    have hy' := hp.iterate_lt hy n
    exact ih hx hy (hp.2 _ hx' _ hy' h)

theorem IsPermOn.exists_period {p : ℕ → ℕ} {N : ℕ} (hp : IsPermOn p N) {i : ℕ} (hi : i < N) :
    ∃ m, 1 ≤ m ∧ m ≤ N ∧ p^[m] i = i := by
  have hmaps : ∀ k : Fin (N + 1), (⟨p^[(k : ℕ)] i, hp.iterate_lt hi k⟩ : Fin N) ∈
      (Finset.univ : Finset (Fin N)) := fun _ => Finset.mem_univ _
  have hcard : (Finset.univ : Finset (Fin N)).card < (Finset.univ : Finset (Fin (N + 1))).card := by
    simp
  obtain ⟨a, _, b, _, hab, heq⟩ :=
    Finset.exists_ne_map_eq_of_card_lt_of_maps_to hcard fun k _ => hmaps k
  have hv : p^[(a : ℕ)] i = p^[(b : ℕ)] i := by
    simpa [Fin.mk.injEq] using heq
  rcases lt_or_gt_of_ne (fun h => hab (Fin.ext h)) with hlt | hlt
  · refine ⟨(b : ℕ) - (a : ℕ), by omega, by have := b.2; omega, ?_⟩
    have : p^[(a : ℕ)] (p^[(b : ℕ) - (a : ℕ)] i) = p^[(a : ℕ)] i := by
      rw [← Function.iterate_add_apply]
      rw [show (a : ℕ) + ((b : ℕ) - (a : ℕ)) = (b : ℕ) by omega]
      exact hv.symm
    exact hp.iterate_inj (a : ℕ) (hp.iterate_lt hi _) hi this
  · refine ⟨(a : ℕ) - (b : ℕ), by omega, by have := a.2; omega, ?_⟩
    have : p^[(b : ℕ)] (p^[(a : ℕ) - (b : ℕ)] i) = p^[(b : ℕ)] i := by
      rw [← Function.iterate_add_apply]
      rw [show (b : ℕ) + ((a : ℕ) - (b : ℕ)) = (a : ℕ) by omega]
      exact hv
    exact hp.iterate_inj (b : ℕ) (hp.iterate_lt hi _) hi this

theorem cycleLenGo_eq_min (p : ℕ → ℕ) (start : ℕ) :
    ∀ fuel current m, 1 ≤ m → m ≤ fuel → p^[m] current = start →
      (∀ m', 1 ≤ m' → m' < m → p^[m'] current ≠ start) →
      cycleLenGo p start fuel current = m := by
  intro fuel
  induction fuel with
  | zero => intro current m h1 h2 _ _; omega
  | succ n ih =>
    intro current m h1 h2 hm hmin
    simp only [cycleLenGo]
    by_cases hpc : p current = start
    · rw [if_pos hpc]
      by_contra hne
      have h2m : 2 ≤ m := by omega
      exact hmin 1 le_rfl (by omega) (by simpa using hpc)
    · rw [if_neg hpc]
      have h2m : 2 ≤ m := by
        by_contra hlt
        have hm1 : m = 1 := by omega
        rw [hm1] at hm
        exact hpc (by simpa using hm)
      have hm' : p^[m - 1] (p current) = start := by
        have he : m - 1 + 1 = m := by omega
        rw [← he] at hm
        rw [Function.iterate_succ_apply] at hm
        exact hm
      have hrec := ih (p current) (m - 1) (by omega) (by omega) hm'
        (by
          intro m' hm1 hm2
          have := hmin (m' + 1) (by omega) (by omega)
          rw [Function.iterate_succ_apply] at this
          exact this)
      omega

theorem cycleLenGo_pos (p : ℕ → ℕ) (start : ℕ) :
    ∀ fuel current, (∃ m, 1 ≤ m ∧ m ≤ fuel ∧ p^[m] current = start) →
      1 ≤ cycleLenGo p start fuel current := by
  intro fuel
  induction fuel with
  | zero =>
    intro current hex
    obtain ⟨m, h1, h2, _⟩ := hex
    omega
  | succ n ih =>
    intro current _
    simp only [cycleLenGo]
    by_cases hpc : p current = start
    · rw [if_pos hpc]
    · rw [if_neg hpc]
      omega

theorem cycleGo_cnt (N : ℕ) (p : ℕ → ℕ) (start : ℕ) :
    ∀ (fuel current : ℕ) (E : ℕ → R) (vis : ℕ → Bool) (t : ℤ) (cnt : ℕ),
      (∃ m, 1 ≤ m ∧ m ≤ fuel ∧ p^[m] current = start) →
      (cycleGo N p start fuel current E vis t cnt).2.2.2.1 =
        cnt + cycleLenGo p start fuel current - 1 := by
  intro fuel
  induction fuel with
  | zero =>
    intro current E vis t cnt hex
    obtain ⟨m, h1, h2, _⟩ := hex
    omega
  | succ n ih =>
    intro current E vis t cnt hex
    simp only [cycleGo, cycleLenGo]
    by_cases hpc : p current = start
    · rw [if_pos hpc, if_pos hpc]
      show cnt = cnt + 1 - 1
      omega
    · rw [if_neg hpc, if_neg hpc]
      obtain ⟨m, h1, h2, hm⟩ := hex
      have h2m : 2 ≤ m := by
        by_contra hlt
        have hm1 : m = 1 := by omega
        rw [hm1] at hm
        exact hpc (by simpa using hm)
      have hex' : ∃ m', 1 ≤ m' ∧ m' ≤ n ∧ p^[m'] (p current) = start := by
        refine ⟨m - 1, by omega, by omega, ?_⟩
        have he : m - 1 + 1 = m := by omega
        rw [← he] at hm
        rw [Function.iterate_succ_apply] at hm
        exact hm
      have hpos := cycleLenGo_pos p start n (p current) hex'
      have := ih (p current) (writeColFrom N E current (p current))
        (Function.update vis current true) (1 - t) (cnt + 1) hex'
      omega

/-- C9: for a fixed non-inert size and sortType = 0, after a converged
`Solve` followed by `GetEigenvectors` with a valid buffer, the
eigenvector-matrix-type flag equals `1 - (N mod 2)` for every input
matrix — `+1` (rotation) exactly when the reflection count `N - 2` is
even (N even), `0` (reflection) when N is odd — and each nontrivial
permutation cycle of length `L` encountered by the column-permutation
loop toggles the parity exactly `L - 1` times. -/
theorem c9_matrix_type_parity (sq : R → R) (s : SymmetricEigensolver R) (input : ℕ → R)
    (b : ℕ → R) (hs : 0 < s.mSize) (j : ℕ) (hj : solveIterations sq s input = some j) :
    ((GetEigenvectors (Solve sq s input 0).2 (some b)).2.mEigenvectorMatrixType =
        1 - (s.mSize % 2 : ℤ) ∧
      (s.mSize % 2 = 0 →
        (GetEigenvectors (Solve sq s input 0).2 (some b)).2.mEigenvectorMatrixType = 1) ∧
      (s.mSize % 2 = 1 →
        (GetEigenvectors (Solve sq s input 0).2 (some b)).2.mEigenvectorMatrixType = 0)) ∧
    (∀ (M : ℕ) (p : ℕ → ℕ) (i : ℕ) (E : ℕ → R) (vis : ℕ → Bool) (t : ℤ),
      IsPermOn p M → i < M → p i ≠ i →
        (cycleGo M p i M i E vis t 0).2.2.2.1 = cycleLength p M i - 1 ∧
        2 ≤ cycleLength p M i ∧ p^[cycleLength p M i] i = i ∧
        (∀ m, 0 < m → m < cycleLength p M i → p^[m] i ≠ i)) := by
  constructor
  · have hflag : (GetEigenvectors (Solve sq s input 0).2 (some b)).2.mEigenvectorMatrixType =
        1 - (s.mSize % 2 : ℤ) := by
      rw [Solve_some_eq sq s input 0 hs j hj]
      have hperm : (ComputePermutation s.mSize (solveDiag sq s input) 0 s.mPermutation).1 =
          Function.update s.mPermutation 0 (-1) := by
        simp [ComputePermutation]
      simp only [GetEigenvectors]
      rw [if_pos hs]
      rw [if_neg (by
        rw [hperm, Function.update_same]
        decide)]
    exact ⟨hflag, fun h => by rw [hflag]; omega, fun h => by rw [hflag]; omega⟩
  · intro M p i E vis t hp hi hpi
    obtain ⟨m0, hm1, hm2, hm0⟩ := hp.exists_period hi
    have hPex : ∃ m, (1 ≤ m ∧ p^[m] i = i) := ⟨m0, hm1, hm0⟩
    have hmin := Nat.find_spec hPex
    have hfind_le : Nat.find hPex ≤ m0 := Nat.find_min' hPex ⟨hm1, hm0⟩
    have hlen : cycleLength p M i = Nat.find hPex := by
      apply cycleLenGo_eq_min p i M i (Nat.find hPex) hmin.1 (by omega) hmin.2
      intro m' h1 h2 hne
      exact absurd ⟨h1, hne⟩ (Nat.find_min hPex h2)
    have hL2 : 2 ≤ cycleLength p M i := by
      rw [hlen]
      by_contra hlt
      have h0 := hmin.1
      have h1 : Nat.find hPex = 1 := by omega
      have h2' := hmin.2
      rw [h1] at h2'
      exact hpi (by simpa using h2')
    refine ⟨?_, hL2, ?_, ?_⟩
    · rw [cycleGo_cnt M p i M i E vis t 0 ⟨m0, hm1, hm2, hm0⟩]
      simp only [cycleLength]
      omega
    · rw [hlen]; exact hmin.2
    · intro m hm hmlt
      rw [hlen] at hmlt
      intro hcontra
      exact absurd ⟨by omega, hcontra⟩ (Nat.find_min hPex hmlt)

/-- Witness for C9: the converged 2×2 solve of `wDiag2` with sortType 0
(flag `1` since N = 2 is even), and the transposition cycle `0 ↔ 1` of a
2-element permutation toggling the parity exactly once. -/
theorem c9_witness :
    (((GetEigenvectors (Solve qSqrtStub wSolver22 wDiag2 0).2 (some wZero)).2.mEigenvectorMatrixType =
        1 - ((2 : ℕ) % 2 : ℤ) ∧
      ((2 : ℕ) % 2 = 0 →
        (GetEigenvectors (Solve qSqrtStub wSolver22 wDiag2 0).2 (some wZero)).2.mEigenvectorMatrixType = 1) ∧
      ((2 : ℕ) % 2 = 1 →
        (GetEigenvectors (Solve qSqrtStub wSolver22 wDiag2 0).2 (some wZero)).2.mEigenvectorMatrixType = 0)) ∧
    (∀ (M : ℕ) (p : ℕ → ℕ) (i : ℕ) (E : ℕ → ℚ) (vis : ℕ → Bool) (t : ℤ),
      IsPermOn p M → i < M → p i ≠ i →
        (cycleGo M p i M i E vis t 0).2.2.2.1 = cycleLength p M i - 1 ∧
        2 ≤ cycleLength p M i ∧ p^[cycleLength p M i] i = i ∧
        (∀ m, 0 < m → m < cycleLength p M i → p^[m] i ≠ i))) ∧
    IsPermOn wSwap2 2 ∧ (0 : ℕ) < 2 ∧ wSwap2 0 ≠ 0 := by
  refine ⟨c9_matrix_type_parity qSqrtStub wSolver22 wDiag2 wZero (by decide) 0
    (by with_unfolding_all decide), by decide, by decide, by decide⟩

omit [LinearOrderedField R] in
theorem decode_mod (N t r : ℕ) (ht : t < N) : (t + N * r) % N = t := by
  rw [Nat.add_mul_mod_self_left]
  exact Nat.mod_eq_of_lt ht

omit [LinearOrderedField R] in
theorem decode_div (N t r : ℕ) (ht : t < N) : (t + N * r) / N = r := by
  rw [Nat.add_mul_div_left _ _ (by omega : 0 < N)]
  rw [Nat.div_eq_of_lt ht]
  omega

theorem sum_congr_two (N a b : ℕ) (ha : a < N) (hb : b < N) (hab : a ≠ b) (f h : ℕ → R)
    (hfh : ∀ t, t < N → t ≠ a → t ≠ b → f t = h t)
    (hsum : f a + f b = h a + h b) :
    ∑ t ∈ Finset.range N, f t = ∑ t ∈ Finset.range N, h t := by
  have hsub : ({a, b} : Finset ℕ) ⊆ Finset.range N := by
    intro x hx
    rcases Finset.mem_insert.mp hx with rfl | hx
    · exact Finset.mem_range.mpr ha
    · rw [Finset.mem_singleton.mp hx]
      exact Finset.mem_range.mpr hb
  have hzero : ∀ x ∈ Finset.range N, x ∉ ({a, b} : Finset ℕ) → f x - h x = 0 := by
    intro x hx hnx
    have hxa : x ≠ a := fun hc => hnx (by rw [hc]; exact Finset.mem_insert_self a {b})
    have hxb : x ≠ b := fun hc => hnx (by
      rw [hc]
      exact Finset.mem_insert_of_mem (Finset.mem_singleton_self b))
    rw [hfh x (Finset.mem_range.mp hx) hxa hxb, sub_self]
  have h1 : ∑ t ∈ Finset.range N, (f t - h t) = ∑ t ∈ ({a, b} : Finset ℕ), (f t - h t) :=
    (Finset.sum_subset hsub hzero).symm
  rw [Finset.sum_pair hab] at h1
  have h2 : ∑ t ∈ Finset.range N, (f t - h t) =
      (∑ t ∈ Finset.range N, f t) - ∑ t ∈ Finset.range N, h t := Finset.sum_sub_distrib
  have : (∑ t ∈ Finset.range N, f t) - (∑ t ∈ Finset.range N, h t) = 0 := by
    rw [← h2, h1]
    have : f a - h a + (f b - h b) = f a + f b - (h a + h b) := by ring
    rw [this, hsum, sub_self]
  linarith [this]

theorem mvN_basis (N : ℕ) (E : ℕ → R) (c : ℕ) (hc : c < N) (j : ℕ) :
    mvN N E (basis c) j = E (c + N * j) := by
  unfold mvN
  rw [Finset.sum_eq_single_of_mem c (Finset.mem_range.mpr hc)]
  · simp [basis]
  · intro t _ htc
    simp [basis, htc]

theorem identityStart_entry (N : ℕ) (bM : ℕ → R) (t r : ℕ) (ht : t < N) (hr : r < N) :
    (fun idx => if idx < N * N then ((if idx % N = idx / N then (1 : R) else 0)) else bM idx)
      (t + N * r) = if t = r then 1 else 0 := by
  show (if t + N * r < N * N then ((if (t + N * r) % N = (t + N * r) / N then (1 : R) else 0))
      else bM (t + N * r)) = if t = r then 1 else 0
  rw [if_pos (by nlinarith : t + N * r < N * N)]
  rw [decode_mod N t r ht, decode_div N t r ht]

theorem mvN_identityStart (N : ℕ) (E0 x : ℕ → R)
    (hE0 : ∀ t r, t < N → r < N → E0 (t + N * r) = if t = r then (1 : R) else 0)
    (r : ℕ) (hr : r < N) : mvN N E0 x r = x r := by
  unfold mvN
  rw [Finset.sum_eq_single_of_mem r (Finset.mem_range.mpr hr)]
  · rw [hE0 r r hr hr]
    simp
  · intro t ht htr
    rw [hE0 t r (Finset.mem_range.mp ht) hr]
    simp [htr]

theorem givensBulkStep_apply (N : ℕ) (E : ℕ → R) (g : GivensRotation R) (t r : ℕ)
    (ht : t < N) (hr : r < N) :
    givensBulkStep N E g (t + N * r) =
      if t = g.index then g.cs * E (t + N * r) - g.sn * E (t + N * r + 1)
      else if t = g.index + 1 then g.sn * E (t + N * r - 1) + g.cs * E (t + N * r)
      else E (t + N * r) := by
  simp only [givensBulkStep]
  rw [decode_div N t r ht, decode_mod N t r ht]
  by_cases h1 : t = g.index
  · rw [if_pos ⟨hr, h1⟩, if_pos h1]
  · rw [if_neg (fun hh => h1 hh.2), if_neg h1]
    by_cases h2 : t = g.index + 1
    · rw [if_pos ⟨hr, h2⟩, if_pos h2]
    · rw [if_neg (fun hh => h2 hh.2), if_neg h2]

theorem mvN_givensBulkStep (N : ℕ) (E x : ℕ → R) (g : GivensRotation R)
    (hg : g.index + 1 < N) (r : ℕ) (hr : r < N) :
    mvN N (givensBulkStep N E g) x r = mvN N E (givensSingleStep g x) r := by
  unfold mvN
  apply sum_congr_two N g.index (g.index + 1) (by omega) hg (by omega)
  · intro t ht hta htb
    simp only [givensBulkStep_apply N E g t r ht hr, if_neg hta, if_neg htb, givensSingleStep]
  · have hne : g.index ≠ g.index + 1 := by omega
    have hne' : g.index + 1 ≠ g.index := by omega
    have e1 : g.index + N * r + 1 = g.index + 1 + N * r := by omega
    have e2 : g.index + 1 + N * r - 1 = g.index + N * r := by omega
    simp only [givensBulkStep_apply N E g g.index r (by omega) hr,
      givensBulkStep_apply N E g (g.index + 1) r hg hr, givensSingleStep,
      if_pos rfl, if_neg hne, if_neg hne', if_true, e1, e2]
    ring

theorem mvN_givens_fold (N : ℕ) (gs : List (GivensRotation R)) :
    ∀ (E x : ℕ → R), (∀ g ∈ gs, g.index + 1 < N) →
      EqBelow N (mvN N (gs.foldl (givensBulkStep N) E) x)
        (mvN N E (gs.foldr givensSingleStep x)) := by
  induction gs with
  | nil => intro E x _ j _; rfl
  | cons g rest ih =>
    intro E x hgs j hj
    have hg : g.index + 1 < N := hgs g (List.mem_cons_self g rest)
    have hrest : ∀ g' ∈ rest, g'.index + 1 < N := fun g' hg' => hgs g' (List.mem_cons_of_mem g hg')
    show mvN N (rest.foldl (givensBulkStep N) (givensBulkStep N E g)) x j =
      mvN N E (givensSingleStep g (rest.foldr givensSingleStep x)) j
    rw [ih (givensBulkStep N E g) x hrest j hj]
    exact mvN_givensBulkStep N E (rest.foldr givensSingleStep x) g hg j hj

theorem givensSingleStep_congr (N : ℕ) (g : GivensRotation R) (x y : ℕ → R)
    (hg : g.index + 1 < N) (hxy : EqBelow N x y) :
    EqBelow N (givensSingleStep g x) (givensSingleStep g y) := by
  intro t ht
  simp only [givensSingleStep]
  rw [hxy g.index (by omega), hxy (g.index + 1) hg]
  by_cases h1 : t = g.index
  · rw [if_pos h1, if_pos h1]
  · rw [if_neg h1, if_neg h1]
    by_cases h2 : t = g.index + 1
    · rw [if_pos h2, if_pos h2]
    · rw [if_neg h2, if_neg h2]
      exact hxy t ht

theorem givens_foldr_congr (N : ℕ) (gs : List (GivensRotation R)) :
    ∀ (x y : ℕ → R), (∀ g ∈ gs, g.index + 1 < N) → EqBelow N x y →
      EqBelow N (gs.foldr givensSingleStep x) (gs.foldr givensSingleStep y) := by
  induction gs with
  | nil => intro x y _ hxy; exact hxy
  | cons g rest ih =>
    intro x y hgs hxy
    exact givensSingleStep_congr N g _ _ (hgs g (List.mem_cons_self g rest))
      (ih x y (fun g' hg' => hgs g' (List.mem_cons_of_mem g hg')) hxy)

theorem hhBulkStep_apply (N : ℕ) (Mx E : ℕ → R) (i t r : ℕ) (ht : t < N) (hr : r < N) :
    hhBulkStep N Mx E i (t + N * r) =
      if i + 1 ≤ r then
        E (t + N * r) -
          (if r = i + 1 then (1 : R) else Mx (i + N * r)) *
            ((∑ k ∈ Finset.Ico (i + 1) N,
              (if k = i + 1 then (1 : R) else Mx (i + N * k)) * E (t + N * k)) *
              Mx (i + N * (i + 1)))
      else E (t + N * r) := by
  simp only [hhBulkStep]
  rw [decode_div N t r ht, decode_mod N t r ht]
  by_cases hir : i + 1 ≤ r
  · rw [if_pos ⟨hir, hr⟩, if_pos hir, if_neg (by omega : ¬ r < i + 1)]
    have hv : (∑ k ∈ Finset.Ico (i + 1) N,
        (if k < i + 1 then (0 : R) else if k = i + 1 then 1 else Mx (i + N * k)) *
          E (t + N * k)) =
        ∑ k ∈ Finset.Ico (i + 1) N,
          (if k = i + 1 then (1 : R) else Mx (i + N * k)) * E (t + N * k) := by
      apply Finset.sum_congr rfl
      intro k hk
      rw [if_neg (by have := (Finset.mem_Ico.mp hk).1; omega : ¬ k < i + 1)]
    rw [hv]
  · rw [if_neg (fun hh => hir hh.1), if_neg hir]

theorem mvN_hhBulkStep (N : ℕ) (Mx E x : ℕ → R) (i : ℕ) (hi : i + 1 < N) (r : ℕ)
    (hr : r < N) :
    mvN N (hhBulkStep N Mx E i) x r = hhSingleStep N Mx (mvN N E x) i r := by
  by_cases hri : r ≤ i
  · have hL : mvN N (hhBulkStep N Mx E i) x r = mvN N E x r := by
      unfold mvN
      apply Finset.sum_congr rfl
      intro t ht
      rw [hhBulkStep_apply N Mx E i t r (Finset.mem_range.mp ht) hr, if_neg (by omega)]
    rw [hL]
    simp only [hhSingleStep]
    rw [if_pos hr, if_pos hri]
  · have hir : i + 1 ≤ r := by omega
    have hL : mvN N (hhBulkStep N Mx E i) x r =
        mvN N E x r -
          (if r = i + 1 then (1 : R) else Mx (i + N * r)) *
            ((∑ k ∈ Finset.Ico (i + 1) N,
              (if k = i + 1 then (1 : R) else Mx (i + N * k)) * mvN N E x k) *
              Mx (i + N * (i + 1))) := by
      have h1 : mvN N (hhBulkStep N Mx E i) x r =
          ∑ t ∈ Finset.range N,
            (x t * E (t + N * r) -
              (if r = i + 1 then (1 : R) else Mx (i + N * r)) *
                ((x t * (∑ k ∈ Finset.Ico (i + 1) N,
                  (if k = i + 1 then (1 : R) else Mx (i + N * k)) * E (t + N * k))) *
                  Mx (i + N * (i + 1)))) := by
        unfold mvN
        apply Finset.sum_congr rfl
        intro t ht
        rw [hhBulkStep_apply N Mx E i t r (Finset.mem_range.mp ht) hr, if_pos hir]
        ring
      rw [h1, Finset.sum_sub_distrib]
      have h2 : (∑ t ∈ Finset.range N,
          (if r = i + 1 then (1 : R) else Mx (i + N * r)) *
            ((x t * (∑ k ∈ Finset.Ico (i + 1) N,
              (if k = i + 1 then (1 : R) else Mx (i + N * k)) * E (t + N * k))) *
              Mx (i + N * (i + 1)))) =
          (if r = i + 1 then (1 : R) else Mx (i + N * r)) *
            ((∑ k ∈ Finset.Ico (i + 1) N,
              (if k = i + 1 then (1 : R) else Mx (i + N * k)) * mvN N E x k) *
              Mx (i + N * (i + 1))) := by
        rw [← Finset.mul_sum]
        congr 1
        rw [← Finset.sum_mul]
        congr 1
        have h3 : ∀ t ∈ Finset.range N,
            x t * (∑ k ∈ Finset.Ico (i + 1) N,
              (if k = i + 1 then (1 : R) else Mx (i + N * k)) * E (t + N * k)) =
            ∑ k ∈ Finset.Ico (i + 1) N,
              (if k = i + 1 then (1 : R) else Mx (i + N * k)) * (x t * E (t + N * k)) := by
          intro t _
          rw [Finset.mul_sum]
          apply Finset.sum_congr rfl
          intro k _
          ring
        rw [Finset.sum_congr rfl h3, Finset.sum_comm]
        apply Finset.sum_congr rfl
        intro k _
        rw [← Finset.mul_sum]
        simp only [mvN]
      rw [h2]
      rfl
    rw [hL]
    simp only [hhSingleStep]
    rw [if_pos hr, if_neg (by omega : ¬ r ≤ i)]
    have hT : (∑ k ∈ Finset.Ico (i + 1) N,
        (if k = i + 1 then (1 : R) else Mx (i + N * k)) * mvN N E x k) =
        mvN N E x (i + 1) +
          ∑ j ∈ Finset.Ico (i + 2) N, mvN N E x j * Mx (i + N * j) := by
      rw [Finset.sum_eq_sum_Ico_succ_bot hi]
      rw [if_pos rfl, one_mul]
      congr 1
      apply Finset.sum_congr rfl
      intro k hk
      rw [if_neg (by have := (Finset.mem_Ico.mp hk).1; omega : ¬ k = i + 1)]
      ring
    rw [hT]
    by_cases hre : r = i + 1
    · subst hre
      rw [if_pos rfl, if_pos rfl]
      ring
    · rw [if_neg hre, if_neg hre]
      ring

theorem hhSingleStep_congr (N : ℕ) (Mx : ℕ → R) (x y : ℕ → R) (i : ℕ)
    (hi : i + 1 < N) (hxy : EqBelow N x y) :
    EqBelow N (hhSingleStep N Mx x i) (hhSingleStep N Mx y i) := by
  intro t ht
  simp only [hhSingleStep]
  have hs : (x (i + 1) + ∑ j ∈ Finset.Ico (i + 2) N, x j * Mx (i + N * j)) =
      (y (i + 1) + ∑ j ∈ Finset.Ico (i + 2) N, y j * Mx (i + N * j)) := by
    rw [hxy (i + 1) hi]
    congr 1
    apply Finset.sum_congr rfl
    intro k hk
    rw [hxy k (Finset.mem_Ico.mp hk).2]
  rw [if_pos ht, if_pos ht]
  by_cases h1 : t ≤ i
  · rw [if_pos h1, if_pos h1]
    exact hxy t ht
  · rw [if_neg h1, if_neg h1]
    by_cases h2 : t = i + 1
    · rw [if_pos h2, if_pos h2, hs, hxy (i + 1) hi]
    · rw [if_neg h2, if_neg h2, hs, hxy t ht]

theorem hh_foldl_congr (N : ℕ) (Mx : ℕ → R) (l : List ℕ) :
    ∀ (x y : ℕ → R), (∀ i ∈ l, i + 1 < N) → EqBelow N x y →
      EqBelow N (l.foldl (hhSingleStep N Mx) x) (l.foldl (hhSingleStep N Mx) y) := by
  induction l with
  | nil => intro x y _ h; exact h
  | cons i rest ih =>
    intro x y hl h
    exact ih _ _ (fun i' h' => hl i' (List.mem_cons_of_mem i h'))
      (hhSingleStep_congr N Mx x y i (hl i (List.mem_cons_self i rest)) h)

theorem mvN_hh_fold (N : ℕ) (Mx : ℕ → R) (l : List ℕ) :
    ∀ (E x : ℕ → R), (∀ i ∈ l, i + 1 < N) →
      EqBelow N (mvN N (l.foldl (hhBulkStep N Mx) E) x)
        (l.foldl (hhSingleStep N Mx) (mvN N E x)) := by
  induction l with
  | nil => intro E x _ j _; rfl
  | cons i rest ih =>
    intro E x hl j hj
    show mvN N (rest.foldl (hhBulkStep N Mx) (hhBulkStep N Mx E i)) x j = _
    rw [ih (hhBulkStep N Mx E i) x (fun i' h' => hl i' (List.mem_cons_of_mem i h')) j hj]
    exact hh_foldl_congr N Mx rest _ _ (fun i' h' => hl i' (List.mem_cons_of_mem i h'))
      (fun t ht => mvN_hhBulkStep N Mx E x i (hl i (List.mem_cons_self i rest)) t ht) j hj

omit [LinearOrderedField R] in
theorem IsPermOn.minPeriod {p : ℕ → ℕ} {N : ℕ} (hp : IsPermOn p N) {a : ℕ} (ha : a < N) :
    ∃ L, 1 ≤ L ∧ L ≤ N ∧ p^[L] a = a ∧ ∀ m, 0 < m → m < L → p^[m] a ≠ a := by
  obtain ⟨m0, hm1, hm2, hm0⟩ := hp.exists_period ha
  have hPex : ∃ m, 1 ≤ m ∧ p^[m] a = a := ⟨m0, hm1, hm0⟩
  refine ⟨Nat.find hPex, (Nat.find_spec hPex).1,
    le_trans (Nat.find_min' hPex ⟨hm1, hm0⟩) hm2, (Nat.find_spec hPex).2, ?_⟩
  intro m h0 hm hcon
  exact Nat.find_min hPex hm ⟨h0, hcon⟩

omit [LinearOrderedField R] in
theorem iterate_mul_period {p : ℕ → ℕ} {a L : ℕ} (hLp : p^[L] a = a) :
    ∀ q, p^[L * q] a = a := by
  intro q
  induction q with
  | zero => rfl
  | succ n ih =>
    rw [Nat.mul_succ, Function.iterate_add_apply, hLp, ih]

omit [LinearOrderedField R] in
theorem iterate_mod_period {p : ℕ → ℕ} {a L : ℕ} (hLp : p^[L] a = a) (m : ℕ) :
    p^[m] a = p^[m % L] a := by
  conv_lhs => rw [← Nat.mod_add_div m L]
  rw [Function.iterate_add_apply, iterate_mul_period hLp (m / L)]

omit [LinearOrderedField R] in
theorem IsPermOn.iterate_distinct {p : ℕ → ℕ} {N : ℕ} (hp : IsPermOn p N) {a : ℕ}
    (ha : a < N) {L : ℕ} (hmin : ∀ m, 0 < m → m < L → p^[m] a ≠ a) :
    ∀ x y, x < L → y < L → p^[x] a = p^[y] a → x = y := by
  have key : ∀ x y, x ≤ y → y < L → p^[x] a = p^[y] a → x = y := by
    intro x y hxy hy heq
    have h1 : p^[x] (p^[y - x] a) = p^[x] a := by
      rw [← Function.iterate_add_apply]
      rw [show x + (y - x) = y by omega]
      exact heq.symm
    have h2 : p^[y - x] a = a := hp.iterate_inj x (hp.iterate_lt ha _) ha h1
    by_contra hne
    exact hmin (y - x) (by omega) (by omega) h2
  intro x y hx hy heq
  rcases le_total x y with h | h
  · exact key x y h hy heq
  · exact (key y x h hx heq.symm).symm

omit [LinearOrderedField R] in
theorem IsPermOn.sameOrbit_of_iterate {p : ℕ → ℕ} {N : ℕ} (hp : IsPermOn p N) {a : ℕ}
    (ha : a < N) (m : ℕ) : SameOrbit p N a (p^[m] a) := by
  obtain ⟨L, hL1, hLN, hLp, _⟩ := hp.minPeriod ha
  exact ⟨m % L, lt_of_lt_of_le (Nat.mod_lt m hL1) hLN, (iterate_mod_period hLp m).symm⟩

omit [LinearOrderedField R] in
theorem IsPermOn.sameOrbit_symm {p : ℕ → ℕ} {N : ℕ} (hp : IsPermOn p N) {a c : ℕ}
    (ha : a < N) (h : SameOrbit p N a c) : SameOrbit p N c a := by
  obtain ⟨m, _, rfl⟩ := h
  obtain ⟨L, hL1, hLN, hLp, _⟩ := hp.minPeriod ha
  by_cases hm0 : m % L = 0
  · have hma : p^[m] a = a := by
      rw [iterate_mod_period hLp m, hm0]
      rfl
    rw [hma]
    exact ⟨0, by omega, rfl⟩
  · have hml : m % L < L := Nat.mod_lt m hL1
    refine ⟨L - m % L, by omega, ?_⟩
    rw [← Function.iterate_add_apply]
    have hdm := Nat.mod_add_div m L
    have he : (L - m % L) + m = L + L * (m / L) := by omega
    rw [he, Function.iterate_add_apply, iterate_mul_period hLp (m / L), hLp]

omit [LinearOrderedField R] in
theorem IsPermOn.sameOrbit_trans {p : ℕ → ℕ} {N : ℕ} (hp : IsPermOn p N) {a c e : ℕ}
    (ha : a < N) (h1 : SameOrbit p N a c) (h2 : SameOrbit p N c e) : SameOrbit p N a e := by
  obtain ⟨m1, _, rfl⟩ := h1
  obtain ⟨m2, _, rfl⟩ := h2
  rw [← Function.iterate_add_apply]
  exact hp.sameOrbit_of_iterate ha (m2 + m1)

omit [LinearOrderedField R] in
theorem IsPermOn.sameOrbit_step {p : ℕ → ℕ} {N : ℕ} (hp : IsPermOn p N) {a c : ℕ}
    (ha : a < N) (h : SameOrbit p N a c) : SameOrbit p N a (p c) := by
  obtain ⟨m, _, rfl⟩ := h
  have hs : p (p^[m] a) = p^[m + 1] a := (Function.iterate_succ_apply' p m a).symm
  rw [hs]
  exact hp.sameOrbit_of_iterate ha (m + 1)

omit [LinearOrderedField R] in
theorem sameOrbit_fixed {p : ℕ → ℕ} {N : ℕ} {a c : ℕ} (hfix : p a = a)
    (h : SameOrbit p N a c) : c = a := by
  obtain ⟨m, _, rfl⟩ := h
  exact Function.iterate_fixed hfix m

omit [LinearOrderedField R] in
theorem IsPermOn.orbit_nonfixed {p : ℕ → ℕ} {N : ℕ} (hp : IsPermOn p N) {a c : ℕ}
    (ha : a < N) (hpa : p a ≠ a) (h : SameOrbit p N a c) : p c ≠ c := by
  intro hfix
  have h3 : a = c := sameOrbit_fixed hfix (hp.sameOrbit_symm ha h)
  exact hpa (by rw [h3]; exact hfix)

omit [LinearOrderedField R] in
theorem IsPermOn.sameOrbit_iff_lt {p : ℕ → ℕ} {N : ℕ} (hp : IsPermOn p N) {a : ℕ}
    (ha : a < N) {L : ℕ} (hL1 : 1 ≤ L) (hLN : L ≤ N) (hLp : p^[L] a = a) (c : ℕ) :
    SameOrbit p N a c ↔ ∃ m, m < L ∧ p^[m] a = c := by
  constructor
  · rintro ⟨m, _, rfl⟩
    exact ⟨m % L, Nat.mod_lt m hL1, (iterate_mod_period hLp m).symm⟩
  · rintro ⟨m, hm, rfl⟩
    exact ⟨m, by omega, rfl⟩

omit [LinearOrderedField R] in
theorem processedBelow_succ {p : ℕ → ℕ} {N : ℕ} (hp : IsPermOn p N) {a : ℕ} (ha : a < N)
    (c : ℕ) : processedBelow p N (a + 1) c ↔
      processedBelow p N a c ∨ (p a ≠ a ∧ SameOrbit p N a c) := by
  constructor
  · rintro ⟨hpc, a', ha', horb⟩
    rcases Nat.lt_succ_iff_lt_or_eq.mp ha' with h | rfl
    · exact Or.inl ⟨hpc, a', h, horb⟩
    · right
      refine ⟨?_, horb⟩
      intro hfix
      exact hpc (by rw [sameOrbit_fixed hfix horb, hfix])
  · rintro (⟨hpc, a', ha', horb⟩ | ⟨hpa, horb⟩)
    · exact ⟨hpc, a', by omega, horb⟩
    · exact ⟨hp.orbit_nonfixed ha hpa horb, a, by omega, horb⟩

omit [LinearOrderedField R] in
theorem not_processed_of_orbit {p : ℕ → ℕ} {N : ℕ} (hp : IsPermOn p N) {a : ℕ}
    (ha : a < N) (hva : ¬ processedBelow p N a a) (c : ℕ) (horb : SameOrbit p N a c) :
    ¬ processedBelow p N a c := by
  rintro ⟨hpc, a0, ha0, horb0⟩
  have hpa : p a ≠ a := by
    intro hfix
    have h := sameOrbit_fixed hfix horb
    rw [h] at hpc
    exact hpc hfix
  exact hva ⟨hpa, a0, ha0,
    hp.sameOrbit_trans (by omega : a0 < N) horb0 (hp.sameOrbit_symm ha horb)⟩

theorem cycleGo_spec (N : ℕ) (p : ℕ → ℕ) (i : ℕ) (L : ℕ)
    (hp : IsPermOn p N) (hi : i < N) (hLp : p^[L] i = i) (hL2 : 2 ≤ L)
    (hmin : ∀ m, 0 < m → m < L → p^[m] i ≠ i) :
    ∀ (fuel k : ℕ), k < L → L - 1 ≤ k + fuel →
      ∀ (E : ℕ → R) (vis : ℕ → Bool) (t : ℤ) (cnt : ℕ) (E0 : ℕ → R) (vis0 : ℕ → Bool),
      (∀ c, c < N → ∀ j, j < N →
        ((∃ m, m < k ∧ p^[m] i = c) → E (c + N * j) = E0 (p c + N * j)) ∧
        (¬ (∃ m, m < k ∧ p^[m] i = c) → E (c + N * j) = E0 (c + N * j))) →
      (∀ c, vis c = true ↔ (vis0 c = true ∨ ∃ m, m < k ∧ p^[m] i = c)) →
      ∃ E' vis' t' cnt',
        cycleGo N p i fuel (p^[k] i) E vis t cnt = (E', vis', t', cnt', p^[L - 1] i) ∧
        (∀ c, c < N → ∀ j, j < N →
          ((∃ m, m < L - 1 ∧ p^[m] i = c) → E' (c + N * j) = E0 (p c + N * j)) ∧
          (¬ (∃ m, m < L - 1 ∧ p^[m] i = c) → E' (c + N * j) = E0 (c + N * j))) ∧
        (∀ c, vis' c = true ↔ (vis0 c = true ∨ ∃ m, m < L - 1 ∧ p^[m] i = c)) := by
  have hdist := hp.iterate_distinct hi hmin
  intro fuel
  induction fuel with
  | zero =>
    intro k hk hfuel E vis t cnt E0 vis0 hE hvis
    have hkL : k = L - 1 := by omega
    subst hkL
    exact ⟨E, vis, t, cnt, rfl, hE, hvis⟩
  | succ n ih =>
    intro k hk hfuel E vis t cnt E0 vis0 hE hvis
    by_cases hkL : k = L - 1
    · subst hkL
      refine ⟨E, vis, t, cnt, ?_, hE, hvis⟩
      simp only [cycleGo]
      have hnx : p (p^[L - 1] i) = i := by
        have h1 : p (p^[L - 1] i) = p^[L - 1 + 1] i :=
          (Function.iterate_succ_apply' p (L - 1) i).symm
        rw [h1, show L - 1 + 1 = L by omega, hLp]
      rw [hnx, if_pos rfl]
    · have hkL1 : k + 1 < L := by omega
      have heq : p (p^[k] i) = p^[k + 1] i := (Function.iterate_succ_apply' p k i).symm
      have hne2 : p^[k + 1] i ≠ i := hmin (k + 1) (by omega) hkL1
      have hstep : cycleGo N p i (n + 1) (p^[k] i) E vis t cnt =
          cycleGo N p i n (p^[k + 1] i) (writeColFrom N E (p^[k] i) (p^[k + 1] i))
            (Function.update vis (p^[k] i) true) (1 - t) (cnt + 1) := by
        simp only [cycleGo]
        rw [heq, if_neg hne2]
      rw [hstep]
      have hE1 : ∀ c, c < N → ∀ j, j < N →
          writeColFrom N E (p^[k] i) (p^[k + 1] i) (c + N * j) =
            if c = p^[k] i then E (p^[k + 1] i + N * j) else E (c + N * j) := by
        intro c hc j hj
        simp only [writeColFrom]
        rw [decode_mod N c j hc, decode_div N c j hc]
        by_cases hcc : c = p^[k] i
        · rw [if_pos ⟨hcc, hj⟩, if_pos hcc]
        · rw [if_neg (fun hh => hcc hh.1), if_neg hcc]
      apply ih (k + 1) hkL1 (by omega)
      · intro c hc j hj
        constructor
        · rintro ⟨m, hm, rfl⟩
          rw [hE1 _ hc j hj]
          by_cases hmk : m = k
          · subst hmk
            rw [if_pos rfl]
            have hnotin : ¬ ∃ m', m' < m ∧ p^[m'] i = p^[m + 1] i := by
              rintro ⟨m', hm', hmeq⟩
              have := hdist m' (m + 1) (by omega) (by omega) hmeq
              omega
            have h2 := (hE (p^[m + 1] i) (hp.iterate_lt hi (m + 1)) j hj).2 hnotin
            rw [h2]
            have h3 : p (p^[m] i) = p^[m + 1] i := (Function.iterate_succ_apply' p m i).symm
            rw [h3]
          · have hcc : p^[m] i ≠ p^[k] i := by
              intro hmeq
              exact hmk (hdist m k (by omega) (by omega) hmeq)
            rw [if_neg hcc]
            exact (hE (p^[m] i) hc j hj).1 ⟨m, by omega, rfl⟩
        · intro hnot
          have hcc : c ≠ p^[k] i := fun hcc => hnot ⟨k, by omega, hcc.symm⟩
          rw [hE1 c hc j hj, if_neg hcc]
          exact (hE c hc j hj).2 (fun ⟨m, hm, hmeq⟩ => hnot ⟨m, by omega, hmeq⟩)
      · intro c
        by_cases hcc : c = p^[k] i
        · subst hcc
          rw [Function.update_same]
          simp only [true_iff]
          exact Or.inr ⟨k, by omega, rfl⟩
        · rw [Function.update_noteq (fun hh => hcc hh)]
          rw [hvis c]
          constructor
          · rintro (h | ⟨m, hm, hmeq⟩)
            · exact Or.inl h
            · exact Or.inr ⟨m, by omega, hmeq⟩
          · rintro (h | ⟨m, hm, hmeq⟩)
            · exact Or.inl h
            · refine Or.inr ⟨m, ?_, hmeq⟩
              rcases Nat.lt_succ_iff_lt_or_eq.mp hm with h' | rfl
              · exact h'
              · exact absurd hmeq.symm hcc

theorem permStep_spec (N : ℕ) (p : ℕ → ℕ) (hp : IsPermOn p N) (E0 : ℕ → R)
    (a : ℕ) (ha : a < N) (E : ℕ → R) (vis : ℕ → Bool) (t : ℤ)
    (hvis : ∀ c, c < N → (vis c = true ↔ processedBelow p N a c))
    (hE : ∀ c, c < N → ∀ j, j < N →
      (processedBelow p N a c → E (c + N * j) = E0 (p c + N * j)) ∧
      (¬ processedBelow p N a c → E (c + N * j) = E0 (c + N * j))) :
    (∀ c, c < N →
      ((permStep N p (E, vis, t) a).2.1 c = true ↔ processedBelow p N (a + 1) c)) ∧
    (∀ c, c < N → ∀ j, j < N →
      (processedBelow p N (a + 1) c →
        (permStep N p (E, vis, t) a).1 (c + N * j) = E0 (p c + N * j)) ∧
      (¬ processedBelow p N (a + 1) c →
        (permStep N p (E, vis, t) a).1 (c + N * j) = E0 (c + N * j))) := by
  by_cases hcond : vis a = false ∧ p a ≠ a
  case neg =>
    have hid : permStep N p (E, vis, t) a = (E, vis, t) := by
      simp only [permStep]
      rw [if_neg hcond]
    have hid1 : (permStep N p (E, vis, t) a).1 = E := by rw [hid]
    have hid2 : (permStep N p (E, vis, t) a).2.1 = vis := by rw [hid]
    have hPB : ∀ c, c < N → (processedBelow p N (a + 1) c ↔ processedBelow p N a c) := by
      intro c hc
      rw [processedBelow_succ hp ha c]
      constructor
      · rintro (h | ⟨hpa, horb⟩)
        · exact h
        · have hva : vis a = true := by
            rcases Bool.eq_false_or_eq_true (vis a) with ht | hf
            · exact ht
            · exact absurd ⟨hf, hpa⟩ hcond
          obtain ⟨hpaa, a0, ha0, horb0⟩ := (hvis a ha).mp hva
          exact ⟨hp.orbit_nonfixed ha hpa horb, a0, ha0,
            hp.sameOrbit_trans (by omega : a0 < N) horb0 horb⟩
      · exact Or.inl
    refine ⟨?_, ?_⟩
    · intro c hc
      rw [hid2, hvis c hc, hPB c hc]
    · intro c hc j hj
      rw [hid1]
      exact ⟨fun hpc => (hE c hc j hj).1 ((hPB c hc).mp hpc),
        fun hpc => (hE c hc j hj).2 (fun hh => hpc ((hPB c hc).mpr hh))⟩
  case pos =>
    obtain ⟨hva, hpa⟩ := hcond
    have hnpa : ¬ processedBelow p N a a := fun h => by
      have := (hvis a ha).mpr h
      rw [hva] at this
      exact Bool.noConfusion this
    obtain ⟨L, hL1, hLN, hLp, hmin⟩ := hp.minPeriod ha
    have hL2 : 2 ≤ L := by
      by_contra hlt
      have hL1' : L = 1 := by omega
      rw [hL1'] at hLp
      exact hpa (by simpa using hLp)
    obtain ⟨E', vis', t', cnt', hrun, hE', hvis'⟩ :=
      cycleGo_spec N p a L hp ha hLp hL2 hmin N 0 (by omega) (by omega) E vis t 0 E vis
        (by
          intro c hc j hj
          exact ⟨by rintro ⟨m, hm, _⟩; omega, fun _ => rfl⟩)
        (by
          intro c
          constructor
          · intro h
            exact Or.inl h
          · rintro (h | ⟨m, hm, _⟩)
            · exact h
            · omega)
    simp only [Function.iterate_zero_apply] at hrun
    have hps : permStep N p (E, vis, t) a =
        (writeColVec N E' (p^[L - 1] a) (colvec N E a),
          Function.update vis' (p^[L - 1] a) true, t') := by
      simp only [permStep]
      rw [if_pos ⟨hva, hpa⟩, hrun]
    have hps1 : (permStep N p (E, vis, t) a).1 =
        writeColVec N E' (p^[L - 1] a) (colvec N E a) := by rw [hps]
    have hps2 : (permStep N p (E, vis, t) a).2.1 =
        Function.update vis' (p^[L - 1] a) true := by rw [hps]
    have hPlt : p^[L - 1] a < N := hp.iterate_lt ha (L - 1)
    have hpP : p (p^[L - 1] a) = a := by
      have h1 : p (p^[L - 1] a) = p^[L - 1 + 1] a :=
        (Function.iterate_succ_apply' p (L - 1) a).symm
      rw [h1, show L - 1 + 1 = L by omega, hLp]
    have horbP : SameOrbit p N a (p^[L - 1] a) := hp.sameOrbit_of_iterate ha (L - 1)
    have hW : ∀ c, c < N → ∀ j, j < N →
        writeColVec N E' (p^[L - 1] a) (colvec N E a) (c + N * j) =
          if c = p^[L - 1] a then E (a + N * j) else E' (c + N * j) := by
      intro c hc j hj
      simp only [writeColVec, colvec]
      rw [decode_mod N c j hc, decode_div N c j hc]
      by_cases hcc : c = p^[L - 1] a
      · rw [if_pos ⟨hcc, hj⟩, if_pos hcc]
      · rw [if_neg (fun hh => hcc hh.1), if_neg hcc]
    have horbIff : ∀ c, SameOrbit p N a c ↔ ∃ m, m < L ∧ p^[m] a = c :=
      hp.sameOrbit_iff_lt ha hL1 hLN hLp
    have hdist := hp.iterate_distinct ha hmin
    refine ⟨?_, ?_⟩
    · intro c hc
      rw [hps2, processedBelow_succ hp ha c]
      by_cases hcc : c = p^[L - 1] a
      · subst hcc
        rw [Function.update_same]
        simp only [true_iff]
        exact Or.inr ⟨hpa, horbP⟩
      · rw [Function.update_noteq hcc, hvis' c, hvis c hc]
        constructor
        · rintro (h | ⟨m, hm, hmeq⟩)
          · exact Or.inl h
          · exact Or.inr ⟨hpa, (horbIff c).mpr ⟨m, by omega, hmeq⟩⟩
        · rintro (h | ⟨_, horb⟩)
          · exact Or.inl h
          · obtain ⟨m, hm, hmeq⟩ := (horbIff c).mp horb
            refine Or.inr ⟨m, ?_, hmeq⟩
            rcases Nat.lt_or_ge m (L - 1) with h' | h'
            · exact h'
            · exfalso
              have : m = L - 1 := by omega
              subst this
              exact hcc hmeq.symm
    · intro c hc j hj
      rw [hps1]
      by_cases hcc : c = p^[L - 1] a
      · subst hcc
        rw [hW _ hPlt j hj, if_pos rfl]
        have hproc : processedBelow p N (a + 1) (p^[L - 1] a) := by
          rw [processedBelow_succ hp ha]
          exact Or.inr ⟨hpa, horbP⟩
        constructor
        · intro _
          rw [hpP]
          exact (hE a ha j hj).2 hnpa
        · intro hnp
          exact absurd hproc hnp
      · rw [hW c hc j hj, if_neg hcc]
        by_cases hin : ∃ m, m < L - 1 ∧ p^[m] a = c
        · have horbc : SameOrbit p N a c := by
            obtain ⟨m, hm, hmeq⟩ := hin
            exact (horbIff c).mpr ⟨m, by omega, hmeq⟩
          have hproc : processedBelow p N (a + 1) c := by
            rw [processedBelow_succ hp ha]
            exact Or.inr ⟨hpa, horbc⟩
          constructor
          · intro _
            rw [(hE' c hc j hj).1 hin]
            exact (hE (p c) (hp.1 c hc) j hj).2
              (not_processed_of_orbit hp ha hnpa (p c) (hp.sameOrbit_step ha horbc))
          · intro hnp
            exact absurd hproc hnp
        · have hnorb : ¬ SameOrbit p N a c := by
            intro horb
            obtain ⟨m, hm, hmeq⟩ := (horbIff c).mp horb
            rcases Nat.lt_or_ge m (L - 1) with h' | h'
            · exact hin ⟨m, h', hmeq⟩
            · have : m = L - 1 := by omega
              subst this
              exact hcc hmeq.symm
          have hPB : processedBelow p N (a + 1) c ↔ processedBelow p N a c := by
            rw [processedBelow_succ hp ha]
            constructor
            · rintro (h | ⟨_, horb⟩)
              · exact h
              · exact absurd horb hnorb
            · exact Or.inl
          rw [(hE' c hc j hj).2 hin]
          exact ⟨fun hpc => (hE c hc j hj).1 (hPB.mp hpc),
            fun hpc => (hE c hc j hj).2 (fun hh => hpc (hPB.mpr hh))⟩

theorem applyPermutation_colvec (N : ℕ) (p : ℕ → ℕ) (hp : IsPermOn p N) (E0 : ℕ → R)
    (t0 : ℤ) (c : ℕ) (hc : c < N) (j : ℕ) (hj : j < N) :
    (applyPermutation N p E0 t0).1 (c + N * j) = E0 (p c + N * j) := by
  have main : ∀ k, k ≤ N →
      (∀ c', c' < N →
        (((List.range k).foldl (permStep N p) (E0, fun _ => false, t0)).2.1 c' = true ↔
          processedBelow p N k c')) ∧
      (∀ c', c' < N → ∀ j', j' < N →
        (processedBelow p N k c' →
          ((List.range k).foldl (permStep N p) (E0, fun _ => false, t0)).1 (c' + N * j') =
            E0 (p c' + N * j')) ∧
        (¬ processedBelow p N k c' →
          ((List.range k).foldl (permStep N p) (E0, fun _ => false, t0)).1 (c' + N * j') =
            E0 (c' + N * j'))) := by
    intro k
    induction k with
    | zero =>
      intro _
      constructor
      · intro c' _
        simp only [List.range_zero, List.foldl_nil]
        constructor
        · intro h
          exact Bool.noConfusion h
        · rintro ⟨_, a0, ha0, _⟩
          omega
      · intro c' _ j' _
        refine ⟨?_, fun _ => rfl⟩
        rintro ⟨_, a0, ha0, _⟩
        omega
    | succ a ih =>
      intro haN1
      have haN : a < N := by omega
      have ihh := ih (by omega)
      have hfold : (List.range (a + 1)).foldl (permStep N p) (E0, fun _ => false, t0) =
          permStep N p ((List.range a).foldl (permStep N p) (E0, fun _ => false, t0)) a := by
        rw [List.range_succ, List.foldl_append]
        rfl
      rw [hfold]
      exact permStep_spec N p hp E0 a haN
        ((List.range a).foldl (permStep N p) (E0, fun _ => false, t0)).1
        ((List.range a).foldl (permStep N p) (E0, fun _ => false, t0)).2.1
        ((List.range a).foldl (permStep N p) (E0, fun _ => false, t0)).2.2
        ihh.1 ihh.2
  obtain ⟨_, hE⟩ := main N le_rfl
  show ((List.range N).foldl (permStep N p) (E0, fun _ => false, t0)).1 (c + N * j) =
    E0 (p c + N * j)
  by_cases hfix : p c = c
  · have h2 := (hE c hc j hj).2 (fun hpc => hpc.1 hfix)
    rw [hfix]
    exact h2
  · exact (hE c hc j hj).1 ⟨hfix, c, hc, ⟨0, by omega, rfl⟩⟩

/-- Every rotation appended by the Givens sweep of `DoQRImplicitShift` has
index at most `imax`: the loop counter `i1` only increases and stays
`≤ imax`. -/
theorem qrSweep_givens_bound (sq : R → R) (imin imax : ℕ) :
    ∀ (fuel i1 : ℕ) (x y a02 : R) (d sd : ℕ → R) (g0 : List (GivensRotation R)),
      i1 ≤ imax →
      ∀ g ∈ (qrSweep sq imin imax fuel i1 x y a02 d sd g0).2.2, g ∈ g0 ∨ g.index ≤ imax := by
  intro fuel
  induction fuel with
  | zero =>
    intro i1 x y a02 d sd g0 _ g hg
    exact Or.inl hg
  | succ n ih =>
    intro i1 x y a02 d sd g0 hi1 g hg
    simp only [qrSweep] at hg
    by_cases hlt : i1 < imax
    · rw [if_pos hlt] at hg
      rcases ih (i1 + 1) _ _ _ _ _ _ hlt g hg with h | h
      · rcases List.mem_append.mp h with h' | h'
        · exact Or.inl h'
        · right
          rw [List.mem_singleton.mp h']
          exact hi1
      · exact Or.inr h
    · rw [if_neg hlt] at hg
      rcases List.mem_append.mp hg with h' | h'
      · exact Or.inl h'
      · right
        rw [List.mem_singleton.mp h']
        exact hi1

/-- `DoQRImplicitShift` only appends rotations with index `≤ imax`. -/
theorem doQR_givens_bound (sq : R → R) (imin imax : ℕ) (d sd : ℕ → R)
    (g0 : List (GivensRotation R)) (h : imin ≤ imax) :
    ∀ g ∈ (DoQRImplicitShift sq imin imax d sd g0).2.2, g ∈ g0 ∨ g.index ≤ imax := by
  intro g hg
  simp only [DoQRImplicitShift] at hg
  exact qrSweep_givens_bound sq imin imax (imax - imin + 1) imin _ _ _ d sd g0 h g hg

/-- Invariant of the outer QR loop: every logged rotation satisfies
`index + 1 < N`, because every block `[imin, imax]` found by `findBlock`
has `imax < N - 1`. -/
theorem qrLoop_givens_bound (sq : R → R) (N : ℕ) :
    ∀ (fuel j : ℕ) (d sd : ℕ → R) (g0 : List (GivensRotation R)),
      (∀ g ∈ g0, g.index + 1 < N) →
      ∀ g ∈ (qrLoop sq N fuel j d sd g0).2.2.2, g.index + 1 < N := by
  intro fuel
  induction fuel with
  | zero =>
    intro j d sd g0 h0 g hg
    exact h0 g hg
  | succ n ih =>
    intro j d sd g0 h0 g hg
    simp only [qrLoop] at hg
    cases hfb : findBlock N d sd with
    | none =>
      rw [hfb] at hg
      exact h0 g hg
    | some pr =>
      obtain ⟨imin, imax⟩ := pr
      rw [hfb] at hg
      obtain ⟨h1, h2, _, _, _⟩ := findBlockGo_none_run d sd (N - 1) imin imax hfb
      refine ih (j + 1) _ _ _ ?_ g hg
      intro g' hg'
      rcases doQR_givens_bound sq imin imax d sd g0 h1 g' hg' with h | h
      · exact h0 g' h
      · omega

/-- All rotations logged by `Solve` act on adjacent row pairs inside the
matrix: `index + 1 < mSize`. -/
theorem solveGivens_bound (sq : R → R) (s : SymmetricEigensolver R) (input : ℕ → R) :
    ∀ g ∈ solveGivens sq s input, g.index + 1 < s.mSize := by
  intro g hg
  exact qrLoop_givens_bound sq s.mSize s.mMaxIterations 0 _ _ []
    (fun g' hg' => absurd hg' (List.not_mem_nil g')) g hg

/-- The index components of the value-sorted item list are pairwise
distinct (the sort permutes the pairs `(d i, i)`, whose indices enumerate
`range N`). -/
theorem sorted_items_snd_nodup (N : ℕ) (d : ℕ → R) (rr : R × ℕ → R × ℕ → Prop)
    [DecidableRel rr] :
    ((((List.range N).map fun t => (d t, t)).insertionSort rr).map Prod.snd).Nodup := by
  have hp : ((((List.range N).map fun t => (d t, t)).insertionSort rr).map Prod.snd).Perm
      (((List.range N).map fun t => (d t, t)).map Prod.snd) :=
    (List.perm_insertionSort rr _).map Prod.snd
  have he : (((List.range N).map fun t => (d t, t)).map Prod.snd) = List.range N := by
    rw [List.map_map]
    have hcomp : (Prod.snd ∘ fun t : ℕ => (d t, t)) = id := rfl
    rw [hcomp, List.map_id]
  rw [he] at hp
  exact hp.nodup_iff.mpr (List.nodup_range N)

/-- A function that agrees on `[0, N)` with the index column of the
value-sorted item list is a permutation of `{0, …, N-1}`. -/
theorem sortedPerm_isPermOn (N : ℕ) (d : ℕ → R) (rr : R × ℕ → R × ℕ → Prop)
    [DecidableRel rr] (q : ℕ → ℕ)
    (hq : ∀ i, i < N → q i =
      ((((List.range N).map fun t => (d t, t)).insertionSort rr).getD i (0, 0)).2) :
    IsPermOn q N := by
  have hlen := sorted_items_length N d rr
  have hnd := sorted_items_snd_nodup N d rr
  constructor
  · intro i hi
    have hi' : i < (((List.range N).map fun t => (d t, t)).insertionSort rr).length := by
      rw [hlen]; exact hi
    rw [hq i hi, List.getD_eq_get?, List.get?_eq_get hi', Option.getD_some]
    exact (sorted_items_entry N d rr _ (List.get_mem _ _ hi')).2
  · intro i hi j hj heq
    have hi' : i < (((List.range N).map fun t => (d t, t)).insertionSort rr).length := by
      rw [hlen]; exact hi
    have hj' : j < (((List.range N).map fun t => (d t, t)).insertionSort rr).length := by
      rw [hlen]; exact hj
    rw [hq i hi, hq j hj, List.getD_eq_get?, List.get?_eq_get hi', List.getD_eq_get?,
      List.get?_eq_get hj', Option.getD_some, Option.getD_some] at heq
    have hmi : i < ((((List.range N).map fun t => (d t, t)).insertionSort rr).map
        Prod.snd).length := by
      rw [List.length_map, hlen]; exact hi
    have hmj : j < ((((List.range N).map fun t => (d t, t)).insertionSort rr).map
        Prod.snd).length := by
      rw [List.length_map, hlen]; exact hj
    have hgeq : ((((List.range N).map fun t => (d t, t)).insertionSort rr).map Prod.snd).get
        ⟨i, hmi⟩ =
        ((((List.range N).map fun t => (d t, t)).insertionSort rr).map Prod.snd).get
        ⟨j, hmj⟩ := by
      rw [List.get_map, List.get_map]
      exact heq
    exact congrArg Fin.val ((List.Nodup.get_inj_iff hnd).mp hgeq)

/-- When the permutation computed by `ComputePermutation` is active (its
entry 0 is nonnegative, which rules out the `sortType = 0` branch), it is
a genuine permutation of `{0, …, N-1}`. -/
theorem computePermutation_isPermOn (N : ℕ) (d : ℕ → R) (sortType : ℤ) (oldPerm : ℕ → ℤ)
    (hact : 0 ≤ (ComputePermutation N d sortType oldPerm).1 0) :
    IsPermOn (fun i => ((ComputePermutation N d sortType oldPerm).1 i).toNat) N := by
  by_cases hst : sortType = 0
  · exfalso
    simp only [ComputePermutation, if_pos hst] at hact
    rw [Function.update_same] at hact
    omega
  · by_cases hpos : 0 < sortType
    · apply sortedPerm_isPermOn N d (fun a b : R × ℕ => a.1 ≤ b.1)
      intro i hi
      simp only [ComputePermutation, if_neg hst, if_pos hpos, if_pos hi, Int.toNat_natCast]
    · apply sortedPerm_isPermOn N d (fun a b : R × ℕ => b.1 ≤ a.1)
      intro i hi
      simp only [ComputePermutation, if_neg hst, if_neg hpos, if_pos hi, Int.toNat_natCast]

/-- Core of C4: applying the reversed Givens log and then the Householder
passes to the basis vector `e_tgt` (the single-eigenvector path) yields,
entry by entry, column `tgt` of the matrix built by the bulk path
(identity start, backward Householder accumulation, chronological Givens
replay). -/
theorem single_matches_bulk_core (N : ℕ) (Mx : ℕ → R) (gs : List (GivensRotation R))
    (b bM : ℕ → R) (tgt : ℕ) (htgt : tgt < N)
    (hgs : ∀ g ∈ gs, g.index + 1 < N) (j : ℕ) (hj : j < N) :
    ((List.range (N - 2)).reverse).foldl (hhSingleStep N Mx)
        ((gs.reverse).foldl (fun x g => givensSingleStep g x)
          (fun t => if t < N then (if t = tgt then (1 : R) else 0) else b t)) j =
      (gs.foldl (givensBulkStep N)
          (((List.range (N - 2)).reverse).foldl (hhBulkStep N Mx)
            (fun idx => if idx < N * N then (if idx % N = idx / N then (1 : R) else 0)
              else bM idx))) (tgt + N * j) := by
  have hl : ∀ i ∈ (List.range (N - 2)).reverse, i + 1 < N := by
    intro i hi
    rw [List.mem_reverse] at hi
    have := List.mem_range.mp hi
    omega
  obtain ⟨E0, hE0prop, hgenE⟩ : ∃ E0 : ℕ → R, (∀ t r, t < N → r < N →
      E0 (t + N * r) = if t = r then (1 : R) else 0) ∧
      (fun idx => if idx < N * N then (if idx % N = idx / N then (1 : R) else 0)
        else bM idx) = E0 :=
    ⟨_, fun t r ht hr => identityStart_entry N bM t r ht hr, rfl⟩
  rw [hgenE]
  have hx0 : EqBelow N
      (fun t => if t < N then (if t = tgt then (1 : R) else 0) else b t) (basis tgt) := by
    intro t ht
    show (if t < N then (if t = tgt then (1 : R) else 0) else b t) = basis tgt t
    rw [if_pos ht]
    rfl
  have hrev : (gs.reverse).foldl (fun x g => givensSingleStep g x)
      (fun t => if t < N then (if t = tgt then (1 : R) else 0) else b t) =
      gs.foldr givensSingleStep
        (fun t => if t < N then (if t = tgt then (1 : R) else 0) else b t) :=
    List.foldl_reverse gs (fun x g => givensSingleStep g x)
      (fun t => if t < N then (if t = tgt then (1 : R) else 0) else b t)
  rw [hrev]
  have h6 := givens_foldr_congr N gs _ _ hgs hx0
  have h7 := hh_foldl_congr N Mx ((List.range (N - 2)).reverse) _ _ hl h6 j hj
  rw [h7]
  have h4 : EqBelow N (mvN N E0 (gs.foldr givensSingleStep (basis tgt)))
      (gs.foldr givensSingleStep (basis tgt)) :=
    fun r hr => mvN_identityStart N E0 _ hE0prop r hr
  have h5 := hh_foldl_congr N Mx ((List.range (N - 2)).reverse)
    (mvN N E0 (gs.foldr givensSingleStep (basis tgt)))
    (gs.foldr givensSingleStep (basis tgt)) hl h4 j hj
  rw [← h5]
  have h3 := mvN_hh_fold N Mx ((List.range (N - 2)).reverse) E0
    (gs.foldr givensSingleStep (basis tgt)) hl j hj
  rw [← h3]
  have h2 := mvN_givens_fold N gs
    (((List.range (N - 2)).reverse).foldl (hhBulkStep N Mx) E0) (basis tgt) hgs j hj
  rw [← h2]
  exact mvN_basis N _ tgt htgt j

/-- C4 in generic form: on any solver state with a well-formed Givens log
and (when active) a well-formed permutation, `GetEigenvector c` succeeds
and its first `mSize` entries agree with column `c` of the
`GetEigenvectors` output. -/
theorem getEigenvector_matches_column (s : SymmetricEigensolver R) (hN : 0 < s.mSize)
    (hgs : ∀ g ∈ s.mGivens, g.index + 1 < s.mSize)
    (hperm : 0 ≤ s.mPermutation 0 →
      IsPermOn (fun i => (s.mPermutation i).toNat) s.mSize)
    (c : ℤ) (hc : 0 ≤ c ∧ c < (s.mSize : ℤ)) (b bM : ℕ → R) :
    ∃ f E, GetEigenvector s c (some b) = VecResult.ok (some f) ∧
      (GetEigenvectors s (some bM)).1 = some E ∧
      ∀ j, j < s.mSize → f j = E (c.toNat + s.mSize * j) := by
  have hcN : c.toNat < s.mSize := by omega
  by_cases hpa : 0 ≤ s.mPermutation 0
  · refine ⟨((List.range (s.mSize - 2)).reverse).foldl (hhSingleStep s.mSize s.mMatrix)
        ((s.mGivens.reverse).foldl (fun x g => givensSingleStep g x)
          (fun t => if t < s.mSize then
            (if t = (s.mPermutation c.toNat).toNat then (1 : R) else 0) else b t)),
      (applyPermutation s.mSize (fun i => (s.mPermutation i).toNat)
        (s.mGivens.foldl (givensBulkStep s.mSize)
          (((List.range (s.mSize - 2)).reverse).foldl (hhBulkStep s.mSize s.mMatrix)
            (fun idx => if idx < s.mSize * s.mSize then
              (if idx % s.mSize = idx / s.mSize then (1 : R) else 0) else bM idx)))
        (1 - (s.mSize % 2 : ℤ))).1, ?_, ?_, ?_⟩
    · simp only [GetEigenvector]
      rw [if_pos hc, if_pos hpa]
    · simp only [GetEigenvectors]
      rw [if_pos hN, if_pos hpa]
    · intro j hj
      have hp := hperm hpa
      have htgt : (s.mPermutation c.toNat).toNat < s.mSize := hp.1 c.toNat hcN
      have hcol := applyPermutation_colvec s.mSize (fun i => (s.mPermutation i).toNat) hp
        (s.mGivens.foldl (givensBulkStep s.mSize)
          (((List.range (s.mSize - 2)).reverse).foldl (hhBulkStep s.mSize s.mMatrix)
            (fun idx => if idx < s.mSize * s.mSize then
              (if idx % s.mSize = idx / s.mSize then (1 : R) else 0) else bM idx)))
        (1 - (s.mSize % 2 : ℤ)) c.toNat hcN j hj
      rw [hcol]
      exact single_matches_bulk_core s.mSize s.mMatrix s.mGivens b bM
        (s.mPermutation c.toNat).toNat htgt hgs j hj
  · refine ⟨((List.range (s.mSize - 2)).reverse).foldl (hhSingleStep s.mSize s.mMatrix)
        ((s.mGivens.reverse).foldl (fun x g => givensSingleStep g x)
          (fun t => if t < s.mSize then (if t = c.toNat then (1 : R) else 0) else b t)),
      s.mGivens.foldl (givensBulkStep s.mSize)
        (((List.range (s.mSize - 2)).reverse).foldl (hhBulkStep s.mSize s.mMatrix)
          (fun idx => if idx < s.mSize * s.mSize then
            (if idx % s.mSize = idx / s.mSize then (1 : R) else 0) else bM idx)),
      ?_, ?_, ?_⟩
    · simp only [GetEigenvector]
      rw [if_pos hc, if_neg hpa]
    · simp only [GetEigenvectors]
      rw [if_pos hN, if_neg hpa]
    · intro j hj
      exact single_matches_bulk_core s.mSize s.mMatrix s.mGivens b bM
        c.toNat hcN hgs j hj

/-- C4: after every converged `Solve` and for every column index `c` in
`[0, size)`, the single-vector path `GetEigenvector(c, out)` produces
exactly the vector stored as column `c` of the matrix written by the bulk
path `GetEigenvectors` (the reverse-chronological Givens replay followed
by the Householder reflections equals extracting one column of the
backward-accumulated bulk reconstruction, including the sorting
permutation of the columns). -/
theorem c4_single_vs_bulk (sq : R → R) (s : SymmetricEigensolver R) (input : ℕ → R)
    (sortType : ℤ) (b bM : ℕ → R) (hs : 0 < s.mSize) (j0 : ℕ)
    (hconv : solveIterations sq s input = some j0)
    (c : ℤ) (hc : 0 ≤ c ∧ c < (s.mSize : ℤ)) :
    ∃ f E, GetEigenvector (Solve sq s input sortType).2 c (some b) = VecResult.ok (some f) ∧
      (GetEigenvectors (Solve sq s input sortType).2 (some bM)).1 = some E ∧
      ∀ j, j < s.mSize → f j = E (c.toNat + s.mSize * j) := by
  rw [Solve_some_eq sq s input sortType hs j0 hconv]
  refine getEigenvector_matches_column _ ?_ ?_ ?_ c ?_ b bM
  · exact hs
  · exact solveGivens_bound sq s input
  · exact computePermutation_isPermOn s.mSize (solveDiag sq s input) sortType s.mPermutation
  · exact hc

/-- Witness for C4: a concrete converged 2×2 solve, compared on column 0. -/
theorem c4_witness :
    ∃ f E, GetEigenvector (Solve qSqrtStub wSolver22 wDiag2 1).2 0 (some wZero) =
        VecResult.ok (some f) ∧
      (GetEigenvectors (Solve qSqrtStub wSolver22 wDiag2 1).2 (some wOne)).1 = some E ∧
      ∀ j, j < wSolver22.mSize → f j = E ((0 : ℤ).toNat + wSolver22.mSize * j) :=
  c4_single_vs_bulk qSqrtStub wSolver22 wDiag2 1 wZero wOne (by decide) 0
    (by with_unfolding_all decide) 0 (by decide)

end GTE
